import Mathlib

/-!
Verification of the tagfs core against its specification.

The definitions below are shallow embeddings of the Rust sources of the
tagfs repository (`src/lib/db/query.rs`, `src/lib/db.rs`, `src/lib/fs.rs`,
`src/lib/fs/entries.rs`).  Strings are modelled as Lean `String` / `List
Char`, SQLite tables as lists of records, and the FUSE reply objects as
returned values.  Each theorem states one property of the specification and
is proved (or refuted) against these embeddings.
-/

set_option maxHeartbeats 1000000

namespace TagFS

/-- A lexed token, mirroring `enum Token` in `src/lib/db/query.rs`. -/
inductive Token where
  | LeftParen
  | RightParen
  | And
  | Or
  | Not
  | StrictEquals
  | Equals
  | LessThan
  | GreaterThan
  | Tag (s : String)
  | Value (s : String)
  deriving DecidableEq

/-- `Token::is_comparison_operator` from `src/lib/db/query.rs`. -/
def Token.isComparisonOperator : Token → Bool
  | .StrictEquals | .Equals | .LessThan | .GreaterThan => true
  | _ => false

/-- The `end_of_tag` helper inside the tag branch of `lex_query`:
terminator characters for a bare tag run. -/
def endOfTag (c : Char) : Bool :=
  c = '=' || c = '<' || c = '>' || c = ' ' || c = '(' || c = ')'

/-- The inner `while` of the tag branch of `lex_query`: reads characters
into the buffer until an end-of-tag character is peeked.  Returns the
buffer and the remaining input (the terminator is not consumed). -/
def scanTag (acc : List Char) : List Char → List Char × List Char
  | [] => (acc, [])
  | c :: rest =>
    if endOfTag c then (acc, c :: rest) else scanTag (acc ++ [c]) rest

/-- The `while chars.next_if(|&c| c == ' ')` loop of the comparison branch
of `lex_query`: drops leading space characters (the lexer's whitespace). -/
def dropSpaces : List Char → List Char
  | [] => []
  | c :: rest => if c = ' ' then dropSpaces rest else c :: rest

/-- The value-scanning loop of `lex_query`.  Consumes characters until an
unescaped terminator: an unescaped `"` when inside a quoted literal, an
unescaped `)` or space otherwise.  A backslash that is not itself escaped
escapes the next character and is not pushed to the buffer.  Returns the
buffer and the remaining input, the terminator not consumed. -/
def scanValue (quoted : Bool) : Bool → List Char → List Char → List Char × List Char
  | _, acc, [] => (acc, [])
  | escaped, acc, c :: rest =>
    let endOfValue := if quoted then c = '"' && !escaped
                      else !escaped && (c = ')' || c = ' ')
    if endOfValue then (acc, c :: rest)
    else if c = '\\' && !escaped then scanValue quoted true acc rest
    else scanValue quoted false (acc ++ [c]) rest

/-- `chars.next_if(|&c| c == '"')`: consume the next character when it is a
double quote.  Returns whether a quote was consumed and the remaining
input. -/
def consumeQuote : List Char → Bool × List Char
  | [] => (false, [])
  | c :: rest => if c = '"' then (true, rest) else (false, c :: rest)

/-- Reading one value after a comparison operator in `lex_query`: skip
leading spaces, consume an opening double quote if present, scan the value,
then consume a closing double quote if present. -/
def readValue (s : List Char) : String × List Char :=
  let s1 := dropSpaces s
  let q := consumeQuote s1
  let p := scanValue q.1 false [] q.2
  (String.mk p.1, (consumeQuote p.2).2)

/-- The reserved-word match at the end of the tag branch of `lex_query`:
only the exact spellings listed in the source become boolean tokens. -/
def keywordOrTag (run : String) : Token :=
  if run = "not" || run = "NOT" then Token.Not
  else if run = "and" || run = "AND" then Token.And
  else if run = "or" || run = "OR" then Token.Or
  else Token.Tag run

theorem scanTag_snd_le (s : List Char) : ∀ acc, ((scanTag acc s).2).length ≤ s.length := by
  induction s with
  | nil => intro acc; simp [scanTag]
  | cons c rest ih =>
    intro acc
    by_cases h : endOfTag c
    · simp [scanTag, h]
    · simpa [scanTag, h] using Nat.le_succ_of_le (ih (acc ++ [c]))

theorem dropSpaces_le (s : List Char) : (dropSpaces s).length ≤ s.length := by
  induction s with
  | nil => simp [dropSpaces]
  | cons c rest ih =>
    by_cases h : c = ' '
    · simpa [dropSpaces, h] using Nat.le_succ_of_le ih
    · simp [dropSpaces, h]

theorem scanValue_snd_le (q : Bool) (s : List Char) :
    ∀ e acc, ((scanValue q e acc s).2).length ≤ s.length := by
  induction s with
  | nil => intro e acc; simp [scanValue]
  | cons c rest ih =>
    intro e acc
    have h1 := ih true acc
    have h2 := ih false (acc ++ [c])
    simp only [scanValue]
    split_ifs <;>
      first
        | exact Nat.le_refl _
        | (simp only [List.length_cons]; omega)

theorem consumeQuote_snd_le (s : List Char) : ((consumeQuote s).2).length ≤ s.length := by
  cases s with
  | nil => simp [consumeQuote]
  | cons c rest =>
    by_cases h : c = '"'
    · simp [consumeQuote, h]
    · simp [consumeQuote, h]

theorem readValue_snd_le (s : List Char) : ((readValue s).2).length ≤ s.length := by
  have h1 : (dropSpaces s).length ≤ s.length := dropSpaces_le s
  have h2 := consumeQuote_snd_le (dropSpaces s)
  have h3 := scanValue_snd_le (consumeQuote (dropSpaces s)).1
    (consumeQuote (dropSpaces s)).2 false []
  have h4 := consumeQuote_snd_le
    (scanValue (consumeQuote (dropSpaces s)).1 false [] (consumeQuote (dropSpaces s)).2).2
  simp only [readValue]
  omega

/-- `chars.next_if(|&c| c == '=')` in the comparison branch of `lex_query`:
decides between the strict-equals and substring-equals tokens and consumes
the second `=` when present. -/
def lexEq : List Char → Token × List Char
  | [] => (Token.Equals, [])
  | c :: r => if c = '=' then (Token.StrictEquals, r) else (Token.Equals, c :: r)

theorem lexEq_snd_le (s : List Char) : ((lexEq s).2).length ≤ s.length := by
  cases s with
  | nil => simp [lexEq]
  | cons c r =>
    by_cases h : c = '='
    · simp [lexEq, h]
    · simp [lexEq, h]

/-- `lex_query` from `src/lib/db/query.rs`: lex a raw query string into
tokens.  Whitespace (the space character) outside quoted values is dropped;
parens become paren tokens; `==` is strict-equals while a single `=` is
substring-equals; `<` and `>` are the ordering operators; after any
comparison operator one value is read with `readValue`; any other run of
characters up to an end-of-tag character becomes a reserved-word token or a
`Tag`. -/
def lexQuery : List Char → List Token
  | [] => []
  | c :: rest =>
    if c = ' ' then lexQuery rest
    else if c = '(' then Token.LeftParen :: lexQuery rest
    else if c = ')' then Token.RightParen :: lexQuery rest
    else if c = '=' then
      (lexEq rest).1
        :: Token.Value (readValue (lexEq rest).2).1
        :: lexQuery (readValue (lexEq rest).2).2
    else if c = '<' then
      Token.LessThan :: Token.Value (readValue rest).1 :: lexQuery (readValue rest).2
    else if c = '>' then
      Token.GreaterThan :: Token.Value (readValue rest).1 :: lexQuery (readValue rest).2
    else
      keywordOrTag (String.mk (scanTag [c] rest).1) :: lexQuery (scanTag [c] rest).2
  termination_by s => s.length
  decreasing_by
    all_goals simp only [List.length_cons]
    all_goals first
      | omega
      | (have h1 := readValue_snd_le (lexEq rest).2
         have h2 := lexEq_snd_le rest
         omega)
      | (have h := readValue_snd_le rest; omega)
      | (have h := scanTag_snd_le rest [c]; omega)

theorem scanValue_quoted_clean (v : List Char) : ∀ acc rest, '"' ∉ v → '\\' ∉ v →
    scanValue true false acc (v ++ '"' :: rest) = (acc ++ v, '"' :: rest) := by
  induction v with
  | nil => intro acc rest _ _; simp [scanValue]
  | cons x v' ih =>
    intro acc rest hq hb
    have hxq : x ≠ '"' := fun h => hq (by simp [h])
    have hxb : x ≠ '\\' := fun h => hb (by simp [h])
    have hq' : '"' ∉ v' := fun h => hq (List.mem_cons_of_mem _ h)
    have hb' : '\\' ∉ v' := fun h => hb (List.mem_cons_of_mem _ h)
    have ihx := ih (acc ++ [x]) rest hq' hb'
    simp [scanValue, hxq, hxb, ihx]

theorem scanValue_bare_clean (v : List Char) : ∀ acc c rest, (c = ')' ∨ c = ' ') →
    (∀ y ∈ v, y ≠ ')' ∧ y ≠ ' ' ∧ y ≠ '\\') →
    scanValue false false acc (v ++ c :: rest) = (acc ++ v, c :: rest) := by
  induction v with
  | nil =>
    intro acc c rest hc _
    rcases hc with h | h <;> subst h <;> simp [scanValue]
  | cons x v' ih =>
    intro acc c rest hc hv
    obtain ⟨hx1, hx2, hx3⟩ := hv x (List.mem_cons_self x v')
    have hv' : ∀ y ∈ v', y ≠ ')' ∧ y ≠ ' ' ∧ y ≠ '\\' :=
      fun y hy => hv y (List.mem_cons_of_mem _ hy)
    have ihx := ih (acc ++ [x]) c rest hc hv'
    simp [scanValue, hx1, hx2, hx3, ihx]

theorem scanValue_backslash (q : Bool) (acc s' : List Char) :
    scanValue q false acc ('\\' :: s') = scanValue q true acc s' := by
  cases q <;> simp [scanValue]

theorem scanValue_escaped_next (q : Bool) (acc : List Char) (c : Char) (s' : List Char) :
    scanValue q true acc (c :: s') = scanValue q false (acc ++ [c]) s' := by
  cases q <;> simp [scanValue]

theorem readValue_quoted_clean (v rest : List Char) (hq : '"' ∉ v) (hb : '\\' ∉ v) :
    readValue ('"' :: (v ++ '"' :: rest)) = (String.mk v, rest) := by
  have h1 : dropSpaces ('"' :: (v ++ '"' :: rest)) = '"' :: (v ++ '"' :: rest) := by
    simp [dropSpaces]
  have h2 : consumeQuote ('"' :: (v ++ '"' :: rest)) = (true, v ++ '"' :: rest) := by
    simp [consumeQuote]
  have h3 := scanValue_quoted_clean v [] rest hq hb
  have h4 : consumeQuote ('"' :: rest) = (true, rest) := by simp [consumeQuote]
  simp [readValue, h1, h2, h3, h4]

theorem readValue_bare_clean (x : Char) (v rest : List Char) (c : Char)
    (hc : c = ')' ∨ c = ' ') (hx1 : x ≠ ' ') (hx2 : x ≠ '"')
    (hv : ∀ y ∈ x :: v, y ≠ ')' ∧ y ≠ ' ' ∧ y ≠ '\\') :
    readValue ((x :: v) ++ c :: rest) = (String.mk (x :: v), c :: rest) := by
  have h1 : dropSpaces (x :: (v ++ c :: rest)) = x :: (v ++ c :: rest) := by
    simp [dropSpaces, hx1]
  have hc2 : c ≠ '"' := by rcases hc with h | h <;> subst h <;> decide
  have h2 : consumeQuote (x :: (v ++ c :: rest)) = (false, x :: (v ++ c :: rest)) := by
    simp [consumeQuote, hx2]
  have h3 := scanValue_bare_clean (x :: v) [] c rest hc hv
  simp only [List.cons_append, List.nil_append] at h3
  have h4 : consumeQuote (c :: rest) = (false, c :: rest) := by simp [consumeQuote, hc2]
  simp [readValue, h1, h2, h3, h4]

/-- C1: the lexer distinguishes `==` (strict-equals) from a single `=`
(substring); after any comparison operator, leading spaces (the lexer's
whitespace) are dropped and exactly one value token is read, optionally
double-quoted; a single unescaped `"` ends a quoted value; an unescaped `)`
or space ends a bare value; a backslash escapes the next character. -/
theorem lex_query_operators_and_value_reading :
    (∀ r, lexQuery ('=' :: '=' :: r)
        = Token.StrictEquals :: Token.Value (readValue r).1 :: lexQuery (readValue r).2)
    ∧ (∀ c r, c ≠ '=' → lexQuery ('=' :: c :: r)
        = Token.Equals :: Token.Value (readValue (c :: r)).1 :: lexQuery (readValue (c :: r)).2)
    ∧ lexQuery ['='] = [Token.Equals, Token.Value ""]
    ∧ (∀ c r, lexQuery ('<' :: c :: r)
        = Token.LessThan :: Token.Value (readValue (c :: r)).1 :: lexQuery (readValue (c :: r)).2)
    ∧ (∀ c r, lexQuery ('>' :: c :: r)
        = Token.GreaterThan :: Token.Value (readValue (c :: r)).1 :: lexQuery (readValue (c :: r)).2)
    ∧ (∀ s, readValue (' ' :: s) = readValue s)
    ∧ (∀ v rest, '"' ∉ v → '\\' ∉ v →
        readValue ('"' :: (v ++ '"' :: rest)) = (String.mk v, rest))
    ∧ (∀ x v rest c, c = ')' ∨ c = ' ' → x ≠ ' ' → x ≠ '"' →
        (∀ y ∈ x :: v, y ≠ ')' ∧ y ≠ ' ' ∧ y ≠ '\\') →
        readValue ((x :: v) ++ c :: rest) = (String.mk (x :: v), c :: rest))
    ∧ (∀ q acc s, scanValue q false acc ('\\' :: s) = scanValue q true acc s)
    ∧ (∀ q acc c s, scanValue q true acc (c :: s) = scanValue q false (acc ++ [c]) s) := by
  refine ⟨?_, ?_, ?_, ?_, ?_, ?_, ?_, ?_, ?_, ?_⟩
  · intro r; simp [lexQuery, lexEq]
  · intro c r hc
    simp [lexQuery, lexEq, hc]
  · simp [lexQuery, lexEq, readValue, dropSpaces, consumeQuote, scanValue]
  · intro c r; simp [lexQuery]
  · intro c r; simp [lexQuery]
  · intro s; simp [readValue, dropSpaces]
  · exact readValue_quoted_clean
  · exact readValue_bare_clean
  · exact scanValue_backslash
  · exact scanValue_escaped_next

/-- Witness for C1 at concrete inputs. -/
theorem lex_query_operators_and_value_reading_witness :
    lexQuery ('=' :: 'a' :: [])
      = Token.Equals :: Token.Value (readValue ['a']).1 :: lexQuery (readValue ['a']).2
    ∧ readValue ('"' :: (['a'] ++ '"' :: [')'])) = (String.mk ['a'], [')'])
    ∧ readValue (['a'] ++ ')' :: []) = (String.mk ['a'], [')']) := by
  refine ⟨lex_query_operators_and_value_reading.2.1 'a' [] (by decide),
    lex_query_operators_and_value_reading.2.2.2.2.2.2.1 ['a'] [')'] (by decide) (by decide),
    lex_query_operators_and_value_reading.2.2.2.2.2.2.2.1 'a' [] [] ')'
      (Or.inl rfl) (by decide) (by decide) (by decide)⟩

example : lexQuery "hello".data = [Token.Tag "hello"] := by
  simp [lexQuery, scanTag, keywordOrTag, endOfTag]
example : lexQuery "hello=world".data
    = [Token.Tag "hello", Token.Equals, Token.Value "world"] := by
  simp [lexQuery, lexEq, scanTag, keywordOrTag, endOfTag, readValue, dropSpaces,
    consumeQuote, scanValue]
example : lexQuery "      (     not nothello   < \\(wor=ld)".data
    = [Token.LeftParen, Token.Not, Token.Tag "nothello", Token.LessThan,
       Token.Value "(wor=ld", Token.RightParen] := by
  simp [lexQuery, lexEq, scanTag, keywordOrTag, endOfTag, readValue, dropSpaces,
    consumeQuote, scanValue]
example : lexQuery "      (     not nothello   > \"(wor\\\"=ld)\"".data
    = [Token.LeftParen, Token.Not, Token.Tag "nothello", Token.GreaterThan,
       Token.Value "(wor\"=ld)"] := by
  simp [lexQuery, lexEq, scanTag, keywordOrTag, endOfTag, readValue, dropSpaces,
    consumeQuote, scanValue]

theorem scanTag_clean (s : List Char) : ∀ acc, (∀ y ∈ s, endOfTag y = false) →
    scanTag acc s = (acc ++ s, []) := by
  induction s with
  | nil => intro acc _; simp [scanTag]
  | cons y s' ih =>
    intro acc hs
    have hy : endOfTag y = false := hs y (List.mem_cons_self y s')
    have hs' : ∀ z ∈ s', endOfTag z = false := fun z hz => hs z (List.mem_cons_of_mem _ hz)
    have ihx := ih (acc ++ [y]) hs'
    simp [scanTag, hy, ihx]

/-- C7 counterexample: the claim says mixed-case forms of the reserved
words (such as `And`) lex as the boolean token; on the code the bare run
`And` lexes as a `Tag` token instead. -/
theorem lex_query_mixed_case_counterexample :
    lexQuery "And".data = [Token.Tag "And"] ∧ [Token.Tag "And"] ≠ [Token.And] := by
  constructor
  · simp [lexQuery, scanTag, keywordOrTag, endOfTag]
  · decide

/-- C7 (amended): a bare run equal to one of the exact spellings `and`,
`AND`, `or`, `OR`, `not`, `NOT` is lexed as the corresponding boolean
token; every other bare run — including mixed-case forms such as `And` or
`nOt` — is lexed as a `Tag` token. -/
theorem lex_query_reserved_words_exact_case :
    (∀ x rest, endOfTag x = false → (∀ y ∈ rest, endOfTag y = false) →
      lexQuery (x :: rest) = [keywordOrTag (String.mk (x :: rest))])
    ∧ (∀ r : String, r = "and" ∨ r = "AND" → keywordOrTag r = Token.And)
    ∧ (∀ r : String, r = "or" ∨ r = "OR" → keywordOrTag r = Token.Or)
    ∧ (∀ r : String, r = "not" ∨ r = "NOT" → keywordOrTag r = Token.Not)
    ∧ (∀ r : String, r ≠ "and" → r ≠ "AND" → r ≠ "or" → r ≠ "OR" →
        r ≠ "not" → r ≠ "NOT" → keywordOrTag r = Token.Tag r)
    ∧ lexQuery "nOt".data = [Token.Tag "nOt"] := by
  refine ⟨?_, ?_, ?_, ?_, ?_, ?_⟩
  · intro x rest hx hrest
    have hx6 : x ≠ '=' ∧ x ≠ '<' ∧ x ≠ '>' ∧ x ≠ ' ' ∧ x ≠ '(' ∧ x ≠ ')' := by
      simp [endOfTag] at hx
      tauto
    obtain ⟨e1, e2, e3, e4, e5, e6⟩ := hx6
    have hsc := scanTag_clean rest [x] hrest
    simp [lexQuery, e1, e2, e3, e4, e5, e6, hsc]
  · rintro r (h | h) <;> subst h <;> decide
  · rintro r (h | h) <;> subst h <;> decide
  · rintro r (h | h) <;> subst h <;> decide
  · intro r h1 h2 h3 h4 h5 h6
    simp [keywordOrTag, h1, h2, h3, h4, h5, h6]
  · simp [lexQuery, scanTag, keywordOrTag, endOfTag]

/-- Witness for C7 (amended) at concrete inputs. -/
theorem lex_query_reserved_words_exact_case_witness :
    lexQuery ('a' :: ['n', 'd']) = [keywordOrTag (String.mk ('a' :: ['n', 'd']))]
    ∧ keywordOrTag "AND" = Token.And
    ∧ keywordOrTag "And" = Token.Tag "And" := by
  refine ⟨lex_query_reserved_words_exact_case.1 'a' ['n', 'd'] (by decide) (by decide),
    lex_query_reserved_words_exact_case.2.1 "AND" (Or.inr rfl),
    lex_query_reserved_words_exact_case.2.2.2.2.1 "And" (by decide) (by decide)
      (by decide) (by decide) (by decide) (by decide)⟩

/-! ### Translation of tokens to SQL (`to_sql` in `src/lib/db/query.rs`) -/

def sqlPartialSelectStart : String :=
  "SELECT TagMapping.Path, TagMapping.TagMappingID FROM TagMapping WHERE "

def sqlPartialStrictEqValue : String :=
  "TagMapping.Path IN ( SELECT TagMapping.Path FROM TagMapping INNER JOIN Tag ON Tag.TagID = TagMapping.TagID WHERE Tag.Name = ? AND TagMapping.Value = ? COLLATE NOCASE )"

def sqlPartialStrictEqValueCaseSens : String :=
  "TagMapping.Path IN ( SELECT TagMapping.Path FROM TagMapping INNER JOIN Tag ON Tag.TagID = TagMapping.TagID WHERE Tag.Name = ? AND TagMapping.Value = ? )"

def sqlPartialEq : String :=
  "TagMapping.Path IN ( SELECT TagMapping.Path FROM TagMapping INNER JOIN Tag ON Tag.TagID = TagMapping.TagID WHERE Tag.Name = ? COLLATE NOCASE )"

def sqlPartialEqCaseSens : String :=
  "TagMapping.Path IN ( SELECT TagMapping.Path FROM TagMapping INNER JOIN Tag ON Tag.TagID = TagMapping.TagID WHERE Tag.Name = ? )"

def sqlPartialEqValue : String :=
  "TagMapping.Path IN ( SELECT TagMapping.Path FROM TagMapping INNER JOIN Tag ON Tag.TagID = TagMapping.TagID WHERE Tag.Name = ? AND TagMapping.Value LIKE ('%' || ? || '%') ESCAPE '\\' COLLATE NOCASE )"

def sqlPartialLtValue : String :=
  "TagMapping.Path IN ( SELECT TagMapping.Path FROM TagMapping INNER JOIN Tag ON Tag.TagID = TagMapping.TagID WHERE Tag.Name = ? AND TagMapping.Value < ? )"

def sqlPartialGtValue : String :=
  "TagMapping.Path IN ( SELECT TagMapping.Path FROM TagMapping INNER JOIN Tag ON Tag.TagID = TagMapping.TagID WHERE Tag.Name = ? AND TagMapping.Value > ? )"

/-- Replace every non-overlapping occurrence of `pat` in the subject,
scanning left to right; an empty pattern leaves the subject unchanged.
This is the common semantics of Rust `str::replace` and SQLite
`REPLACE(X, Y, Z)`. -/
def replaceAll (pat sub : List Char) : List Char → List Char
  | [] => []
  | c :: rest =>
    if hp : pat = [] then c :: rest
    else if pat.isPrefixOf (c :: rest) then
      sub ++ replaceAll pat sub ((c :: rest).drop pat.length)
    else
      c :: replaceAll pat sub rest
  termination_by s => s.length
  decreasing_by
    · have hlen : 0 < pat.length := List.length_pos.mpr hp
      simp only [List.length_drop, List.length_cons]
      omega
    · simp only [List.length_cons]
      omega

/-- The `%`/`_` escaping applied to the substring operand in the
`Some(Equals)` branch of `to_sql`. -/
def escapeLikeValue (v : String) : String :=
  String.mk (replaceAll ['_'] ['\\', '_'] (replaceAll ['%'] ['\\', '%'] v.data))

/-- The loop of `to_sql` from `src/lib/db/query.rs`, with the accumulated
SQL string and parameter list made explicit.  A `Tag` consumes a following
comparison operator and its value when present (appending the matching SQL
partial and pushing the bound parameters); boolean operators and parens are
appended verbatim; a `Value` or comparison operator seen at the top level is
an error; reaching the end of the tokens appends the GROUP BY / ORDER BY
tail and succeeds. -/
def toSqlAux (caseSensitive : Bool) :
    List Token → String → List String → Except String (String × List String)
  | [], sql, params =>
    .ok (sql ++ " GROUP BY TagMapping.Path" ++ " ORDER BY TagMapping.TagMappingID", params)
  | [Token.Tag t], sql, params =>
    toSqlAux caseSensitive []
      (sql ++ (if caseSensitive then sqlPartialEqCaseSens else sqlPartialEq))
      (params ++ [t])
  | Token.Tag t :: c :: rest2, sql, params =>
    if c.isComparisonOperator then
      match rest2 with
      | Token.Value v :: rest3 =>
        match c with
        | Token.StrictEquals =>
          toSqlAux caseSensitive rest3
            (sql ++ (if caseSensitive then sqlPartialStrictEqValueCaseSens
                     else sqlPartialStrictEqValue))
            (params ++ [t, v])
        | Token.Equals =>
          toSqlAux caseSensitive rest3 (sql ++ sqlPartialEqValue)
            (params ++ [t, escapeLikeValue v])
        | Token.GreaterThan =>
          toSqlAux caseSensitive rest3 (sql ++ sqlPartialGtValue) (params ++ [t, v])
        | Token.LessThan =>
          toSqlAux caseSensitive rest3 (sql ++ sqlPartialLtValue) (params ++ [t, v])
        | _ => .error "unreachable"
      | _ =>
        match c with
        | Token.StrictEquals => .error "expected value after == operator."
        | Token.Equals => .error "expected value after = operator."
        | Token.GreaterThan => .error "expected value after > operator."
        | Token.LessThan => .error "expected value after < operator."
        | _ => .error "unreachable"
    else
      toSqlAux caseSensitive (c :: rest2)
        (sql ++ (if caseSensitive then sqlPartialEqCaseSens else sqlPartialEq))
        (params ++ [t])
  | Token.And :: rest, sql, params => toSqlAux caseSensitive rest (sql ++ " AND ") params
  | Token.Or :: rest, sql, params => toSqlAux caseSensitive rest (sql ++ " OR ") params
  | Token.Not :: rest, sql, params => toSqlAux caseSensitive rest (sql ++ " NOT ") params
  | Token.LeftParen :: rest, sql, params => toSqlAux caseSensitive rest (sql ++ " ( ") params
  | Token.RightParen :: rest, sql, params => toSqlAux caseSensitive rest (sql ++ " ) ") params
  | Token.Value _ :: _, _, _ => .error "unexpected value."
  | Token.StrictEquals :: _, _, _ => .error "unexpected comparison operator."
  | Token.Equals :: _, _, _ => .error "unexpected comparison operator."
  | Token.LessThan :: _, _, _ => .error "unexpected comparison operator."
  | Token.GreaterThan :: _, _, _ => .error "unexpected comparison operator." 

/-- `to_sql` from `src/lib/db/query.rs`. -/
def toSql (tokens : List Token) (caseSensitive : Bool) :
    Except String (String × List String) :=
  toSqlAux caseSensitive tokens sqlPartialSelectStart []

/-- Success of the `to_sql` loop depends only on the token stream, not on
the accumulated SQL or parameters; this function computes it directly. -/
def toSqlOk : List Token → Bool
  | [] => true
  | [Token.Tag _] => true
  | Token.Tag _ :: c :: rest2 =>
    if c.isComparisonOperator then
      match rest2 with
      | Token.Value _ :: rest3 => toSqlOk rest3
      | _ => false
    else
      toSqlOk (c :: rest2)
  | Token.And :: rest => toSqlOk rest
  | Token.Or :: rest => toSqlOk rest
  | Token.Not :: rest => toSqlOk rest
  | Token.LeftParen :: rest => toSqlOk rest
  | Token.RightParen :: rest => toSqlOk rest
  | Token.Value _ :: _ => false
  | Token.StrictEquals :: _ => false
  | Token.Equals :: _ => false
  | Token.LessThan :: _ => false
  | Token.GreaterThan :: _ => false

/-- The first error class of the specification: a comparison operator token
not immediately followed by a value token. -/
def cmpFollowedByValue (ts : List Token) : Prop :=
  ∀ i c, ts[i]? = some c → c.isComparisonOperator = true →
    ∃ v, ts[i + 1]? = some (Token.Value v)

/-- The second error class of the specification: every value token is
immediately preceded by a tag token followed by a comparison operator. -/
def valueHasTagCmp (ts : List Token) : Prop :=
  ∀ i v, ts[i]? = some (Token.Value v) →
    ∃ j t c, i = j + 2 ∧ ts[j]? = some (Token.Tag t) ∧
      ts[j + 1]? = some c ∧ c.isComparisonOperator = true

theorem except_isOk_ok {e a : Type} (x : a) : (Except.ok x : Except e a).isOk = true := rfl

theorem except_isOk_error {e a : Type} (err : e) :
    (Except.error err : Except e a).isOk = false := rfl

theorem toSqlOk_tag_cmp_stuck (t : String) (c : Token) (rest2 : List Token)
    (hcmp : c.isComparisonOperator = true)
    (hside : ∀ v rest3, rest2 = Token.Value v :: rest3 → False) :
    toSqlOk (Token.Tag t :: c :: rest2) = false := by
  cases c <;> try (simp [Token.isComparisonOperator] at hcmp)
  all_goals (rcases rest2 with _ | ⟨x, r2⟩)
  all_goals try (cases x)
  all_goals first
    | exact (hside _ _ rfl).elim
    | simp [toSqlOk, Token.isComparisonOperator]

theorem toSqlAux_tag_cmp_stuck (cs : Bool) (t : String) (c : Token)
    (rest2 : List Token) (sql : String) (ps : List String)
    (hcmp : c.isComparisonOperator = true)
    (hside : ∀ v rest3, rest2 = Token.Value v :: rest3 → False) :
    (toSqlAux cs (Token.Tag t :: c :: rest2) sql ps).isOk = false := by
  cases c <;> try (simp [Token.isComparisonOperator] at hcmp)
  all_goals (rcases rest2 with _ | ⟨x, r2⟩)
  all_goals try (cases x)
  all_goals first
    | exact (hside _ _ rfl).elim
    | simp [toSqlAux, Token.isComparisonOperator, except_isOk_ok, except_isOk_error]

/-- Success of `to_sql` does not depend on the accumulators. -/
theorem toSqlAux_isOk (cs : Bool) (ts : List Token) :
    ∀ sql ps, (toSqlAux cs ts sql ps).isOk = toSqlOk ts := by
  induction ts using toSqlOk.induct with
  | case1 => intro sql ps; simp [toSqlAux, toSqlOk, except_isOk_ok, except_isOk_error]
  | case2 t => intro sql ps; simp [toSqlAux, toSqlOk, except_isOk_ok, except_isOk_error,
      Token.isComparisonOperator]
  | case3 t c hcmp v rest3 ih =>
    intro sql ps
    cases c <;> simp [Token.isComparisonOperator] at hcmp <;>
      simp [toSqlAux, toSqlOk, ih, except_isOk_ok, except_isOk_error, Token.isComparisonOperator]
  | case4 t c rest2 hcmp hside =>
    intro sql ps
    rw [toSqlAux_tag_cmp_stuck cs t c rest2 sql ps hcmp hside,
      toSqlOk_tag_cmp_stuck t c rest2 hcmp hside]
  | case5 t c rest2 hcmp ih =>
    intro sql ps
    rw [toSqlAux.eq_def, toSqlOk.eq_def]
    simp only [Bool.not_eq_true] at hcmp
    simp [hcmp, ih, except_isOk_ok, except_isOk_error]
  | case6 rest ih => intro sql ps; simp [toSqlAux, toSqlOk, ih, except_isOk_ok, except_isOk_error]
  | case7 rest ih => intro sql ps; simp [toSqlAux, toSqlOk, ih, except_isOk_ok, except_isOk_error]
  | case8 rest ih => intro sql ps; simp [toSqlAux, toSqlOk, ih, except_isOk_ok, except_isOk_error]
  | case9 rest ih => intro sql ps; simp [toSqlAux, toSqlOk, ih, except_isOk_ok, except_isOk_error]
  | case10 rest ih => intro sql ps; simp [toSqlAux, toSqlOk, ih, except_isOk_ok, except_isOk_error]
  | case11 v tl => intro sql ps; simp [toSqlAux, toSqlOk, except_isOk_ok, except_isOk_error]
  | case12 tl => intro sql ps; simp [toSqlAux, toSqlOk, except_isOk_ok, except_isOk_error]
  | case13 tl => intro sql ps; simp [toSqlAux, toSqlOk, except_isOk_ok, except_isOk_error]
  | case14 tl => intro sql ps; simp [toSqlAux, toSqlOk, except_isOk_ok, except_isOk_error]
  | case15 tl => intro sql ps; simp [toSqlAux, toSqlOk, except_isOk_ok, except_isOk_error]

theorem props_cons_shift (x : Token) (l : List Token)
    (hxc : x.isComparisonOperator = false)
    (hxt : ∀ s, x ≠ Token.Tag s)
    (hxv : ∀ s, x ≠ Token.Value s) :
    (cmpFollowedByValue (x :: l) ∧ valueHasTagCmp (x :: l))
      ↔ (cmpFollowedByValue l ∧ valueHasTagCmp l) := by
  constructor
  · rintro ⟨h1, h2⟩
    constructor
    · intro i c h hc
      obtain ⟨v, hv⟩ := h1 (i + 1) c (by simpa using h) hc
      exact ⟨v, by simpa using hv⟩
    · intro i v h
      obtain ⟨j, t', c', hj, ht', hc', hcm⟩ := h2 (i + 1) v (by simpa using h)
      cases j with
      | zero =>
        simp at ht'
        exact absurd ht' (hxt t')
      | succ j1 =>
        exact ⟨j1, t', c', by omega, by simpa using ht', by simpa using hc', hcm⟩
  · rintro ⟨h1, h2⟩
    constructor
    · intro i c h hc
      cases i with
      | zero =>
        simp at h
        subst h
        rw [hxc] at hc
        cases hc
      | succ n =>
        obtain ⟨v, hv⟩ := h1 n c (by simpa using h) hc
        exact ⟨v, by simpa using hv⟩
    · intro i v h
      cases i with
      | zero =>
        simp at h
        exact absurd h (hxv v)
      | succ n =>
        obtain ⟨j, t', c', hj, ht', hc', hcm⟩ := h2 n v (by simpa using h)
        exact ⟨j + 1, t', c', by omega, by simpa using ht', by simpa using hc', hcm⟩

theorem props_tag_noncmp_shift (t : String) (c : Token) (l : List Token)
    (hc : c.isComparisonOperator = false) :
    (cmpFollowedByValue (Token.Tag t :: c :: l) ∧ valueHasTagCmp (Token.Tag t :: c :: l))
      ↔ (cmpFollowedByValue (c :: l) ∧ valueHasTagCmp (c :: l)) := by
  constructor
  · rintro ⟨h1, h2⟩
    constructor
    · intro i c' h hcp
      obtain ⟨v, hv⟩ := h1 (i + 1) c' (by simpa using h) hcp
      exact ⟨v, by simpa using hv⟩
    · intro i v h
      obtain ⟨j, t', c', hj, ht', hc', hcm⟩ := h2 (i + 1) v (by simpa using h)
      cases j with
      | zero =>
        simp at hc'
        subst hc'
        rw [hc] at hcm
        cases hcm
      | succ j1 =>
        exact ⟨j1, t', c', by omega, by simpa using ht', by simpa using hc', hcm⟩
  · rintro ⟨h1, h2⟩
    constructor
    · intro i c' h hcp
      cases i with
      | zero =>
        simp at h
        subst h
        simp [Token.isComparisonOperator] at hcp
      | succ n =>
        obtain ⟨v, hv⟩ := h1 n c' (by simpa using h) hcp
        exact ⟨v, by simpa using hv⟩
    · intro i v h
      cases i with
      | zero => simp at h
      | succ n =>
        obtain ⟨j, t', c', hj, ht', hc', hcm⟩ := h2 n v (by simpa using h)
        exact ⟨j + 1, t', c', by omega, by simpa using ht', by simpa using hc', hcm⟩

/-- `to_sql` succeeds exactly when every comparison operator is immediately
followed by a value token and every value token is immediately preceded by a
tag-plus-comparison-operator pair. -/
theorem toSqlOk_iff (ts : List Token) :
    toSqlOk ts = true ↔ cmpFollowedByValue ts ∧ valueHasTagCmp ts := by
  induction ts using toSqlOk.induct with
  | case1 =>
    constructor
    · intro _
      exact ⟨fun i c h _ => by simp at h, fun i v h => by simp at h⟩
    · intro _
      simp [toSqlOk]
  | case2 t =>
    constructor
    · intro _
      constructor
      · intro i c h hc
        cases i with
        | zero =>
          simp at h
          subst h
          simp [Token.isComparisonOperator] at hc
        | succ n => simp at h
      · intro i v h
        cases i with
        | zero => simp at h
        | succ n => simp at h
    · intro _
      simp [toSqlOk]
  | case3 t c hcmp v rest3 ih =>
    have hred : toSqlOk (Token.Tag t :: c :: Token.Value v :: rest3) = toSqlOk rest3 := by
      simp [toSqlOk, hcmp]
    rw [hred, ih]
    constructor
    · rintro ⟨h1, h2⟩
      constructor
      · intro i c' h hc'
        cases i with
        | zero =>
          simp at h
          subst h
          simp [Token.isComparisonOperator] at hc'
        | succ n =>
          cases n with
          | zero => exact ⟨v, by simp⟩
          | succ m =>
            cases m with
            | zero =>
              simp at h
              subst h
              simp [Token.isComparisonOperator] at hc'
            | succ k =>
              obtain ⟨v', hv'⟩ := h1 k c' (by simpa using h) hc'
              exact ⟨v', by simpa using hv'⟩
      · intro i v' h
        cases i with
        | zero => simp at h
        | succ n =>
          cases n with
          | zero =>
            simp at h
            subst h
            simp [Token.isComparisonOperator] at hcmp
          | succ m =>
            cases m with
            | zero => exact ⟨0, t, c, rfl, by simp, by simp, hcmp⟩
            | succ k =>
              obtain ⟨j, t', c', hj, ht', hc', hcm⟩ := h2 k v' (by simpa using h)
              exact ⟨j + 3, t', c', by omega, by simpa using ht', by simpa using hc', hcm⟩
    · rintro ⟨h1, h2⟩
      constructor
      · intro i c' h hc'
        obtain ⟨v', hv'⟩ := h1 (i + 3) c' (by simpa using h) hc'
        exact ⟨v', by simpa using hv'⟩
      · intro i v' h
        obtain ⟨j, t', c', hj, ht', hc', hcm⟩ := h2 (i + 3) v' (by simpa using h)
        cases j with
        | zero => omega
        | succ j1 =>
          cases j1 with
          | zero =>
            simp at ht'
            subst ht'
            simp [Token.isComparisonOperator] at hcmp
          | succ j2 =>
            cases j2 with
            | zero => simp at ht'
            | succ k =>
              exact ⟨k, t', c', by omega, by simpa using ht', by simpa using hc', hcm⟩
  | case4 t c rest2 hcmp hside =>
    rw [toSqlOk_tag_cmp_stuck t c rest2 hcmp hside]
    simp only [Bool.false_eq_true, false_iff]
    rintro ⟨h1, h2⟩
    obtain ⟨v, hv⟩ := h1 1 c (by simp) hcmp
    have hv0 : rest2[0]? = some (Token.Value v) := by simpa using hv
    cases hr : rest2 with
    | nil => rw [hr] at hv0; simp at hv0
    | cons x r2 =>
      rw [hr] at hv0
      simp at hv0
      exact hside v r2 (by rw [hr, hv0])
  | case5 t c rest2 hcmp ih =>
    simp only [Bool.not_eq_true] at hcmp
    have hred : toSqlOk (Token.Tag t :: c :: rest2) = toSqlOk (c :: rest2) := by
      rw [toSqlOk.eq_def]
      simp [hcmp]
    rw [hred, ih]
    exact (props_tag_noncmp_shift t c rest2 hcmp).symm
  | case6 rest ih =>
    have hred : toSqlOk (Token.And :: rest) = toSqlOk rest := by simp [toSqlOk]
    rw [hred, ih]
    exact (props_cons_shift Token.And rest rfl (fun s h => by cases h) (fun s h => by cases h)).symm
  | case7 rest ih =>
    have hred : toSqlOk (Token.Or :: rest) = toSqlOk rest := by simp [toSqlOk]
    rw [hred, ih]
    exact (props_cons_shift Token.Or rest rfl (fun s h => by cases h) (fun s h => by cases h)).symm
  | case8 rest ih =>
    have hred : toSqlOk (Token.Not :: rest) = toSqlOk rest := by simp [toSqlOk]
    rw [hred, ih]
    exact (props_cons_shift Token.Not rest rfl (fun s h => by cases h) (fun s h => by cases h)).symm
  | case9 rest ih =>
    have hred : toSqlOk (Token.LeftParen :: rest) = toSqlOk rest := by simp [toSqlOk]
    rw [hred, ih]
    exact (props_cons_shift Token.LeftParen rest rfl
      (fun s h => by cases h) (fun s h => by cases h)).symm
  | case10 rest ih =>
    have hred : toSqlOk (Token.RightParen :: rest) = toSqlOk rest := by simp [toSqlOk]
    rw [hred, ih]
    exact (props_cons_shift Token.RightParen rest rfl
      (fun s h => by cases h) (fun s h => by cases h)).symm
  | case11 v tl =>
    have hred : toSqlOk (Token.Value v :: tl) = false := by simp [toSqlOk]
    rw [hred]
    simp only [Bool.false_eq_true, false_iff]
    rintro ⟨h1, h2⟩
    obtain ⟨j, t', c', hj, _, _, _⟩ := h2 0 v (by simp)
    omega
  | case12 tl =>
    have hred : toSqlOk (Token.StrictEquals :: tl) = false := by simp [toSqlOk]
    rw [hred]
    simp only [Bool.false_eq_true, false_iff]
    rintro ⟨h1, h2⟩
    obtain ⟨v, hv⟩ := h1 0 Token.StrictEquals (by simp) rfl
    obtain ⟨j, t', c', hj, _, _, _⟩ := h2 1 v hv
    omega
  | case13 tl =>
    have hred : toSqlOk (Token.Equals :: tl) = false := by simp [toSqlOk]
    rw [hred]
    simp only [Bool.false_eq_true, false_iff]
    rintro ⟨h1, h2⟩
    obtain ⟨v, hv⟩ := h1 0 Token.Equals (by simp) rfl
    obtain ⟨j, t', c', hj, _, _, _⟩ := h2 1 v hv
    omega
  | case14 tl =>
    have hred : toSqlOk (Token.LessThan :: tl) = false := by simp [toSqlOk]
    rw [hred]
    simp only [Bool.false_eq_true, false_iff]
    rintro ⟨h1, h2⟩
    obtain ⟨v, hv⟩ := h1 0 Token.LessThan (by simp) rfl
    obtain ⟨j, t', c', hj, _, _, _⟩ := h2 1 v hv
    omega
  | case15 tl =>
    have hred : toSqlOk (Token.GreaterThan :: tl) = false := by simp [toSqlOk]
    rw [hred]
    simp only [Bool.false_eq_true, false_iff]
    rintro ⟨h1, h2⟩
    obtain ⟨v, hv⟩ := h1 0 Token.GreaterThan (by simp) rfl
    obtain ⟨j, t', c', hj, _, _, _⟩ := h2 1 v hv
    omega

/-- `Query::from_raw` followed by `Query::execute`
(`Database::query(query, false)` as used by the filesystem): the query is
lexed, translated to SQL, and executed against the store.  The store's
rejection of the translated statement (SQLite refusing a malformed combined
expression) is abstracted as the predicate `rejects` on the produced SQL
and bound parameters.  Returns `true` when the query fails. -/
def dbQueryFails (rejects : String → List String → Bool) (q : String) : Bool :=
  match toSql (lexQuery q.data) false with
  | .error _ => true
  | .ok (sql, params) => rejects sql params

/-! ### The entry graph (`src/lib/fs/entries.rs`) and `lookup` -/

/-- `FUSE_ROOT_ID` from the fuser crate. -/
def FUSE_ROOT_ID : Nat := 1

/-- An entry of the graph, mirroring `enum Entry` in
`src/lib/fs/entries.rs`.  The `FileAttr` payload (whose fields other than
the inode number and kind are compile-time constants: 0755/0444
permissions, uid/gid 1000, mount-time timestamps, blksize 512) is not
carried here; the claims under verification do not mention it. -/
inductive Entry where
  | Root
  | QueryDir
  | QueryResultDir (displayName : String) (query : String)
  | TagDir (name : String)
  | ValueDir (displayName : String) (value : String) (tag : String)
  | Link (name : String) (target : Nat)
  | AllTagsDir
  | AllTagsIntermediate (path : String) (name : String)
  | AllTagsTerminal (path : String) (name : String)
  deriving DecidableEq

/-- The `Entries` struct: the inode generator's last value, the
`inode -> Entry` map and the `(parent inode, name) -> child inode` map.
The hash maps are modelled as association lists (first binding wins). -/
structure Entries where
  lastValue : Nat
  attrs : List (Nat × Entry)
  names : List ((Nat × String) × Nat)
  deriving DecidableEq

/-- `Entries::new`: the graph initially holds only the root entry. -/
def Entries.new : Entries :=
  { lastValue := FUSE_ROOT_ID, attrs := [(FUSE_ROOT_ID, Entry.Root)], names := [] }

/-- First matching binding of a `(parent, name)` key in the association
list modelling the `names` hash map. -/
def lookupPN : List ((Nat × String) × Nat) → Nat → String → Option Nat
  | [], _, _ => none
  | kv :: rest, p, n =>
    if kv.1.1 = p ∧ kv.1.2 = n then some kv.2 else lookupPN rest p n

/-- `Entries::try_get_inode`. -/
def tryGetInode (e : Entries) (parent : Nat) (name : String) : Option Nat :=
  lookupPN e.names parent name

/-- First matching binding of an inode in the association list modelling
the `attrs` hash map. -/
def lookupIno : List (Nat × Entry) → Nat → Option Entry
  | [], _ => none
  | kv :: rest, i => if kv.1 = i then some kv.2 else lookupIno rest i

/-- Lookup in the `inode -> Entry` map. -/
def getEntry (e : Entries) (ino : Nat) : Option Entry :=
  lookupIno e.attrs ino

/-- `Entries::get_or_create_query_directory`: idempotent singleton child of
the root named `?`. -/
def getOrCreateQueryDirectory (e : Entries) : Nat × Entries :=
  match tryGetInode e FUSE_ROOT_ID "?" with
  | some ino => (ino, e)
  | none =>
    let ino := e.lastValue + 1
    (ino, { lastValue := ino,
            names := ((FUSE_ROOT_ID, "?"), ino) :: e.names,
            attrs := (ino, Entry.QueryDir) :: e.attrs })

/-- `Entries::get_or_create_query_result_dir`: child of the query directory
keyed by the display name; allocates a fresh inode when absent. -/
def getOrCreateQueryResultDir (e : Entries) (query name : String) : Nat × Entries :=
  let p := getOrCreateQueryDirectory e
  match tryGetInode p.2 p.1 name with
  | some ino => (ino, p.2)
  | none =>
    let ino := p.2.lastValue + 1
    (ino, { lastValue := ino,
            names := ((p.1, name), ino) :: p.2.names,
            attrs := (ino, Entry.QueryResultDir name query) :: p.2.attrs })

/-- `Entries::get_query`: the raw query text of a `QueryResultDir` inode.
The source panics when the inode is missing or of another variant; this is
modelled as `none`. -/
def getQuery (e : Entries) (ino : Nat) : Option String :=
  match getEntry e ino with
  | some (Entry.QueryResultDir _ q) => some q
  | _ => none

/-- `libc::ENOENT`. -/
def ENOENT : Nat := 2

/-- A FUSE `lookup` reply: either an entry (attr elided) or an error
code. -/
inductive LookupReply where
  | entry (ino : Nat)
  | error (code : Nat)
  deriving DecidableEq

/-- The `parent == query directory` branch of `TagFS::lookup`
(`src/lib/fs.rs`): get-or-create a `QueryResultDir` child named `name`
(with `name` as both display name and query text), read the entry's query
text back, and run it against the database; when the database rejects the
query, reply `ENOENT` — the just-created entry stays in the graph.  On
success the children are preloaded (`readdir_helper(inode, 0, None)`),
abstracted here as `preload`, and the entry is replied.  `none` models the
panic inside `get_query`. -/
def lookupQueryDir (rejects : String → List String → Bool)
    (preload : Entries → Nat → Entries) (e : Entries) (name : String) :
    Option (Entries × LookupReply) :=
  let p := getOrCreateQueryResultDir e name name
  match getQuery p.2 p.1 with
  | none => none
  | some query =>
    if dbQueryFails rejects query then some (p.2, LookupReply.error ENOENT)
    else some (preload p.2 p.1, LookupReply.entry p.1)

/-- C8: translation of a lexed query to a store selection fails exactly
when a comparison operator token is not immediately followed by a value
token, or a value token appears without a preceding tag-plus-operator; the
whole query pipeline fails exactly when translation fails or the store
rejects the translated statement; and whenever the engine rejects a query,
`lookup` under the query directory replies ENOENT and never any other
error code. -/
theorem to_sql_error_characterisation :
    (∀ ts cs, (toSql ts cs).isOk = true ↔ cmpFollowedByValue ts ∧ valueHasTagCmp ts)
    ∧ (∀ rejects q, dbQueryFails rejects q = true ↔
        (¬(cmpFollowedByValue (lexQuery q.data) ∧ valueHasTagCmp (lexQuery q.data))
          ∨ ∃ sql ps, toSql (lexQuery q.data) false = .ok (sql, ps) ∧ rejects sql ps = true))
    ∧ (∀ rejects preload e name q,
        getQuery (getOrCreateQueryResultDir e name name).2
            (getOrCreateQueryResultDir e name name).1 = some q →
        dbQueryFails rejects q = true →
        lookupQueryDir rejects preload e name
          = some ((getOrCreateQueryResultDir e name name).2, LookupReply.error ENOENT))
    ∧ (∀ rejects preload e name e2 code,
        lookupQueryDir rejects preload e name = some (e2, LookupReply.error code) →
        code = ENOENT) := by
  have hmain : ∀ ts cs, ((toSql ts cs).isOk = true
      ↔ cmpFollowedByValue ts ∧ valueHasTagCmp ts) := by
    intro ts cs
    rw [toSql, toSqlAux_isOk cs ts sqlPartialSelectStart []]
    exact toSqlOk_iff ts
  refine ⟨hmain, ?_, ?_, ?_⟩
  · intro rejects q
    rcases h : toSql (lexQuery q.data) false with err | pr
    · have hf : ¬(cmpFollowedByValue (lexQuery q.data) ∧ valueHasTagCmp (lexQuery q.data)) := by
        rw [← hmain (lexQuery q.data) false, h]
        simp [Except.isOk, Except.toBool]
      simp only [dbQueryFails, h]
      constructor
      · intro _
        exact Or.inl hf
      · intro _
        trivial
    · have ht : cmpFollowedByValue (lexQuery q.data) ∧ valueHasTagCmp (lexQuery q.data) := by
        rw [← hmain (lexQuery q.data) false, h]
        rfl
      simp only [dbQueryFails, h]
      constructor
      · intro hr
        exact Or.inr ⟨pr.1, pr.2, rfl, hr⟩
      · rintro (hcon | ⟨sql, ps, hok, hr⟩)
        · exact absurd ht hcon
        · injection hok with hok
          rw [hok]
          exact hr
  · intro rejects preload e name q hq hfails
    simp only [lookupQueryDir, hq, hfails, if_pos]
  · intro rejects preload e name e2 code h
    rcases hq : getQuery (getOrCreateQueryResultDir e name name).2
        (getOrCreateQueryResultDir e name name).1 with _ | q
    · simp [lookupQueryDir, hq] at h
    · simp only [lookupQueryDir, hq] at h
      by_cases hf : dbQueryFails rejects q = true
      · rw [if_pos hf] at h
        injection h with h
        injection h with _ h
        injection h with h
        exact h.symm
      · rw [if_neg hf] at h
        injection h with h
        injection h with _ h
        cases h

/-- Witness for C8 at a concrete rejected query. -/
theorem to_sql_error_characterisation_witness :
    lookupQueryDir (fun _ _ => false) (fun e _ => e) Entries.new "=="
      = some ((getOrCreateQueryResultDir Entries.new "==" "==").2, LookupReply.error ENOENT) := by
  have h1 : getQuery (getOrCreateQueryResultDir Entries.new "==" "==").2
      (getOrCreateQueryResultDir Entries.new "==" "==").1 = some "==" := by decide
  have hl : lexQuery "==".data = [Token.StrictEquals, Token.Value ""] := by
    simp [lexQuery, lexEq, readValue, dropSpaces, consumeQuote, scanValue]
  have h2 : dbQueryFails (fun _ _ => false) "==" = true := by
    simp only [dbQueryFails, hl]
    decide
  exact to_sql_error_characterisation.2.2.1 (fun _ _ => false) (fun e _ => e)
    Entries.new "==" "==" h1 h2

/-- C10: under the query directory, `lookup` creates (or reuses) the
`QueryResultDir` entry for the looked-up name before validating the query
text; on rejection the reply is ENOENT but the freshly allocated inode
stays in the entry graph, and a later lookup of the same name resolves to
that same inode without further allocation. -/
theorem lookup_query_dir_creates_before_validation
    (rejects : String → List String → Bool) (preload : Entries → Nat → Entries)
    (e : Entries) (name : String)
    (hle : FUSE_ROOT_ID ≤ e.lastValue)
    (hroot : tryGetInode e FUSE_ROOT_ID "?" ≠ some FUSE_ROOT_ID)
    (hnone : tryGetInode (getOrCreateQueryDirectory e).2 (getOrCreateQueryDirectory e).1 name
      = none)
    (hfails : dbQueryFails rejects name = true) :
    ∃ e2 ino,
      lookupQueryDir rejects preload e name = some (e2, LookupReply.error ENOENT)
      ∧ ino = (getOrCreateQueryDirectory e).2.lastValue + 1
      ∧ tryGetInode e2 (getOrCreateQueryDirectory e2).1 name = some ino
      ∧ getOrCreateQueryResultDir e2 name name = (ino, e2)
      ∧ lookupQueryDir rejects preload e2 name = some (e2, LookupReply.error ENOENT) := by
  set p := getOrCreateQueryDirectory e with hp
  have hqd : p.1 ≠ FUSE_ROOT_ID := by
    rw [hp]
    unfold getOrCreateQueryDirectory
    rcases hr : tryGetInode e FUSE_ROOT_ID "?" with _ | k
    · simp only [hr]
      simp only [FUSE_ROOT_ID] at hle ⊢
      omega
    · simp only [hr]
      intro hcon
      exact hroot (by rw [hr, hcon])
  have hqdir : tryGetInode p.2 FUSE_ROOT_ID "?" = some p.1 := by
    rw [hp]
    unfold getOrCreateQueryDirectory
    rcases hr : tryGetInode e FUSE_ROOT_ID "?" with _ | k
    · simp [tryGetInode, lookupPN]
    · simpa [tryGetInode] using hr
  -- the fresh entry created by the first lookup
  set ino := p.2.lastValue + 1 with hino
  set e2 : Entries :=
    { lastValue := ino,
      names := ((p.1, name), ino) :: p.2.names,
      attrs := (ino, Entry.QueryResultDir name name) :: p.2.attrs } with he2
  have hcreate : getOrCreateQueryResultDir e name name = (ino, e2) := by
    rw [getOrCreateQueryResultDir]
    rw [← hp]
    rw [hnone]
  have hqdir2 : getOrCreateQueryDirectory e2 = (p.1, e2) := by
    rw [getOrCreateQueryDirectory]
    have : tryGetInode e2 FUSE_ROOT_ID "?" = some p.1 := by
      rw [he2]
      simp only [tryGetInode, lookupPN]
      rw [if_neg (by
        rintro ⟨hh, _⟩
        exact hqd hh)]
      exact hqdir
    rw [this]
  have hfind2 : tryGetInode e2 p.1 name = some ino := by
    rw [he2]
    simp [tryGetInode, lookupPN]
  have hcreate2 : getOrCreateQueryResultDir e2 name name = (ino, e2) := by
    rw [getOrCreateQueryResultDir, hqdir2, hfind2]
  have hquery : getQuery e2 ino = some name := by
    rw [he2]
    simp [getQuery, getEntry, lookupIno]
  refine ⟨e2, ino, ?_, rfl, ?_, hcreate2, ?_⟩
  · rw [lookupQueryDir, hcreate]
    simp only [hquery, hfails, if_pos]
  · rw [hqdir2]
    exact hfind2
  · rw [lookupQueryDir, hcreate2]
    simp only [hquery, hfails, if_pos]

/-- Witness for C10 at a concrete rejected query on the fresh graph. -/
theorem lookup_query_dir_creates_before_validation_witness :
    ∃ e2 ino,
      lookupQueryDir (fun _ _ => false) (fun e _ => e) Entries.new "=="
        = some (e2, LookupReply.error ENOENT)
      ∧ ino = (getOrCreateQueryDirectory Entries.new).2.lastValue + 1
      ∧ tryGetInode e2 (getOrCreateQueryDirectory e2).1 "==" = some ino
      ∧ getOrCreateQueryResultDir e2 "==" "==" = (ino, e2)
      ∧ lookupQueryDir (fun _ _ => false) (fun e _ => e) e2 "=="
        = some (e2, LookupReply.error ENOENT) := by
  have hl : lexQuery "==".data = [Token.StrictEquals, Token.Value ""] := by
    simp [lexQuery, lexEq, readValue, dropSpaces, consumeQuote, scanValue]
  have h2 : dbQueryFails (fun _ _ => false) "==" = true := by
    simp only [dbQueryFails, hl]
    decide
  exact lookup_query_dir_creates_before_validation (fun _ _ => false) (fun e _ => e)
    Entries.new "==" (by decide) (by decide) (by decide) h2

/-! ### `readdir` on the root (`TagFS::readdir_root`, `src/lib/fs.rs`) -/

/-- `TagFS::readdir_root` from `src/lib/fs.rs`, as the sequence of entry
names handed to the kernel reply buffer (modelled unbounded, i.e.
`reply.add` never reports a full buffer).  `tags` is what
`Database::all_tags` returns (tag names ordered by `TagID`).  When
`offset < 2` the static children `?` and `tags` are emitted from index
`offset`; the tag loop then emits `tags.iter().enumerate().skip(offset)` —
the skip count is the raw offset, not reduced by the number of reserved
entries (the reply offsets it reports are `idx + 1` for the static entries
and `idx + 3` for tags). -/
def readdirRoot (tags : List String) (offset : Nat) : List String :=
  (if offset < 2 then (["?", "tags"].drop offset) else []) ++ tags.drop offset

/-- The flat sequence of the specification: the two reserved children
followed by all tag names, with `readdir(offset)` yielding everything past
the first `offset` items. -/
def readdirRootSpec (tags : List String) (offset : Nat) : List String :=
  (["?", "tags"] ++ tags).drop offset

/-- C2: `readdir_root` at offset 0 does yield the reserved children
followed by the tag names, but for any non-zero offset the tag list is
skipped by the raw offset instead of `offset - 2`: at offset 1 with a
single tag `a` the code yields only `["tags"]` while the flat sequence of
the specification yields `["tags", "a"]`, so resumed listings lose tags. -/
theorem readdir_root_offset_divergence :
    (∀ tags, readdirRoot tags 0 = ["?", "tags"] ++ tags)
    ∧ readdirRoot ["a"] 1 = ["tags"]
    ∧ readdirRootSpec ["a"] 1 = ["tags", "a"]
    ∧ readdirRoot ["a"] 1 ≠ readdirRootSpec ["a"] 1
    ∧ readdirRoot ["a"] 2 = []
    ∧ readdirRootSpec ["a"] 2 = ["a"] := by
  refine ⟨?_, by decide, by decide, by decide, by decide, by decide⟩
  intro tags
  simp [readdirRoot]

/-! ### `readdir` on the query directory (`TagFS::readdir_query_dir`) -/

/-- `StoredQuery` from `src/lib/db/stored_query.rs`. -/
structure StoredQuery where
  name : String
  query : String
  deriving DecidableEq

/-- The list hard-coded inside `TagFS::readdir_query_dir`
(`src/lib/fs.rs`), marked there with `TODO: put these into the
database.` -/
def hardcodedStoredQueries : List (String × String) :=
  [("medium-watch", "runtime > 100 and runtime < 130 and not watched"),
   ("unwatched", "not watched and type=film")]

/-- `TagFS::readdir_query_dir` from `src/lib/fs.rs`, as the sequence of
display names handed to the reply buffer: the hard-coded stored queries,
each formatted `format!("{name} @ [{query}]")`, skipping `offset` items.
The function takes no tag-store argument because the source never consults
the store. -/
def readdirQueryDir (offset : Nat) : List String :=
  ((hardcodedStoredQueries.map (fun nq => nq.1 ++ " @ [" ++ nq.2 ++ "]")).drop offset)

/-- Modelled from the spec: `readdir` on the QueryDir yields the queries
currently persisted in the `StoredQueries` table, each displayed as
`"<name> @ [<query>]"` (`Database::stored_queries` in `src/lib/db.rs`
provides the rows; the display format is `StoredQuery`'s `Display`
implementation in `src/lib/db/stored_query.rs`). -/
def readdirQueryDirSpec (stored : List StoredQuery) (offset : Nat) : List String :=
  (stored.map (fun sq => sq.name ++ " @ [" ++ sq.query ++ "]")).drop offset

/-- C3: the code ignores the `StoredQueries` table entirely — it always
lists the two hard-coded queries, whatever the store holds, so queries
added to or removed from the store are never reflected. -/
theorem readdir_query_dir_ignores_store :
    readdirQueryDir 0
      = ["medium-watch @ [runtime > 100 and runtime < 130 and not watched]",
         "unwatched @ [not watched and type=film]"]
    ∧ readdirQueryDirSpec [] 0 = []
    ∧ readdirQueryDir 0 ≠ readdirQueryDirSpec [] 0
    ∧ readdirQueryDirSpec [⟨"q", "tag1"⟩] 0 = ["q @ [tag1]"]
    ∧ readdirQueryDir 0 ≠ readdirQueryDirSpec [⟨"q", "tag1"⟩] 0 := by
  refine ⟨by decide, by decide, by decide, by decide, by decide⟩

/-! ### `read` on a `.tags` file (`TagFS::read`, `src/lib/fs.rs`) -/

/-- `SimpleTagFormatter`'s `Display` implementation
(`src/lib/db/query.rs`): `tag=value` when the mapping carries a value,
`tag` otherwise. -/
def simpleTagFormat (tag : String) (value : Option String) : String :=
  match value with
  | some v => tag ++ "=" ++ v
  | none => tag

/-- The buffer built by the `writeln!` loop of `TagFS::read`: one
formatted line per mapping of the path, in the order `Database::tags`
returns them (ascending mapping id, i.e. store insertion order). -/
def tagsBuf (rows : List (String × Option String)) : String :=
  rows.foldl (fun buf r => buf ++ simpleTagFormat r.1 r.2 ++ "\n") ""

/-- The reply of `TagFS::read`: when `offset < buf.len()` the bytes of the
buffer from `offset` to the end are sent (`buf.as_bytes()[offset..]` — the
caller's `size` is never used); otherwise no data reply is sent at all,
modelled as `none`.  Bytes are modelled as the characters of the buffer
(every string in the claims is ASCII). -/
def tagfsRead (rows : List (String × Option String)) (offset : Nat) : Option String :=
  if offset < (tagsBuf rows).length
  then some (String.mk ((tagsBuf rows).data.drop offset))
  else none

/-- The read reply as the claim describes it: the buffer sliced by both
the caller's offset and size, with an empty reply once offset reaches the
buffer length. -/
def readSpec (rows : List (String × Option String)) (offset size : Nat) : String :=
  String.mk (((tagsBuf rows).data.drop offset).take size)

/-- C4 counterexample: the claim says the reply is sliced by the caller's
`size` and an empty reply is sent when `offset` is at the buffer length;
the code ignores `size` (replying with the whole tail of the buffer) and
sends no data reply at all when `offset` is past the end. -/
theorem read_ignores_size_counterexample :
    tagfsRead [("k1", none), ("k2", some "v")] 0 = some "k1\nk2=v\n"
    ∧ readSpec [("k1", none), ("k2", some "v")] 0 2 = "k1"
    ∧ tagfsRead [("k1", none), ("k2", some "v")] 0
        ≠ some (readSpec [("k1", none), ("k2", some "v")] 0 2)
    ∧ tagfsRead [("k1", none), ("k2", some "v")] 8 = none
    ∧ readSpec [("k1", none), ("k2", some "v")] 8 4096 = "" := by
  refine ⟨by decide, by decide, by decide, by decide, by decide⟩

/-- C4 (amended): the reply buffer is exactly the concatenation, in store
insertion order, of `tag\n` for valueless mappings and `tag=value\n` for
valued ones; `read(ino, offset, size)` replies with the bytes of that
buffer from `offset` to the end — ignoring `size` — when `offset` is
inside the buffer, and sends no data reply when `offset` is at or past the
buffer length. -/
theorem read_replies_buffer_tail_from_offset (rows : List (String × Option String))
    (offset : Nat) :
    (tagsBuf rows).data
      = (rows.map (fun r => (simpleTagFormat r.1 r.2).data ++ ['\n'])).flatten
    ∧ (offset < (tagsBuf rows).length →
        tagfsRead rows offset = some (String.mk ((tagsBuf rows).data.drop offset)))
    ∧ ((tagsBuf rows).length ≤ offset → tagfsRead rows offset = none) := by
  refine ⟨?_, ?_, ?_⟩
  · have general : ∀ rows : List (String × Option String), ∀ acc : String,
        (rows.foldl (fun buf r => buf ++ simpleTagFormat r.1 r.2 ++ "\n") acc).data
          = acc.data ++ (rows.map (fun r => (simpleTagFormat r.1 r.2).data ++ ['\n'])).flatten := by
      intro rows
      induction rows with
      | nil => intro acc; simp
      | cons r rest ih =>
        intro acc
        simp only [List.foldl_cons, List.map_cons, List.flatten_cons, ih]
        simp [List.append_assoc]
    simpa using general rows ""
  · intro h
    simp [tagfsRead, h]
  · intro h
    simp [tagfsRead]
    omega

/-- Witness for C4 (amended) at a concrete mapping list and offset. -/
theorem read_replies_buffer_tail_from_offset_witness :
    tagfsRead [("k1", none)] 1 = some (String.mk ((tagsBuf [("k1", none)]).data.drop 1))
    ∧ tagfsRead [("k1", none)] 3 = none := by
  exact ⟨(read_replies_buffer_tail_from_offset [("k1", none)] 1).2.1 (by decide),
    (read_replies_buffer_tail_from_offset [("k1", none)] 3).2.2 (by decide)⟩

/-! ### The tag store (`src/lib/db.rs`) -/

/-- The `Tag` table row (`TagInfo` in `src/lib/db.rs`). -/
structure TagInfo where
  id : Nat
  name : String
  takesValue : Bool
  deriving DecidableEq

/-- The `TagMapping` table row (`TagMapping` in `src/lib/db.rs`). -/
structure TagMapping where
  id : Nat
  tagId : Nat
  path : String
  value : Option String
  auto : Bool
  deriving DecidableEq

/-- The store state: the `Tag` and `TagMapping` tables in row order
together with the autoincrement counters of their integer primary keys. -/
structure Db where
  nextTagId : Nat
  nextMappingId : Nat
  tags : List TagInfo
  mappings : List TagMapping
  deriving DecidableEq

/-- A freshly initialised store: both tables empty. -/
def emptyDb : Db := { nextTagId := 1, nextMappingId := 1, tags := [], mappings := [] }

/-- `Database::get_tag`: the tag row with the given name, if any. -/
def getDbTag (db : Db) (name : String) : Option TagInfo :=
  db.tags.find? (fun t => t.name == name)

/-- `Database::create_tag`: `INSERT INTO Tag (Name, TakesValue)`; fails
when the `UNIQUE(Name)` constraint fires. -/
def createTag (db : Db) (name : String) (takesValue : Bool) :
    Except String (TagInfo × Db) :=
  if db.tags.any (fun t => t.name == name) then
    .error "UNIQUE constraint failed: Tag.Name"
  else
    .ok (⟨db.nextTagId, name, takesValue⟩,
      { db with nextTagId := db.nextTagId + 1,
                tags := db.tags ++ [⟨db.nextTagId, name, takesValue⟩] })

/-- The generated column `ValueUniqConstraint = COALESCE(Value, 'NULL')`. -/
def valueUniq (v : Option String) : String := v.getD "NULL"

/-- `INSERT INTO TagMapping (TagID, Path, Value, Auto)`; fails when the
`UNIQUE(TagID, ValueUniqConstraint, Path)` constraint fires (surfaced by
`tag_inner` as the duplicate-tag error). -/
def insertMapping (db : Db) (tagId : Nat) (path : String) (value : Option String)
    (auto : Bool) : Except String Db :=
  if db.mappings.any (fun m =>
      m.tagId == tagId && valueUniq m.value == valueUniq value && m.path == path) then
    .error "UNIQUE constraint failed: TagMapping"
  else
    .ok { db with nextMappingId := db.nextMappingId + 1,
                  mappings := db.mappings ++ [⟨db.nextMappingId, tagId, path, value, auto⟩] }

/-- `Database::tag_inner`: look the tag up by name; when it exists, bail
on a missing value for a value-taking tag or a present value for a
valueless one, before anything is written; when it does not exist, create
it with `takes_value = value.is_some()`; then insert the mapping. -/
def tagInner (db : Db) (path tagName : String) (value : Option String) (auto : Bool) :
    Except String Db :=
  match getDbTag db tagName with
  | some t =>
    if t.takesValue ∧ value.isNone then
      .error ("tag \"" ++ tagName ++ "\" takes a value but one was not given")
    else if ¬t.takesValue ∧ value.isSome then
      .error ("tag \"" ++ tagName ++ "\" does not take a value but one was given")
    else insertMapping db t.id path value auto
  | none =>
    match createTag db tagName value.isSome with
    | .error e => .error e
    | .ok (t, db2) => insertMapping db2 t.id path value auto

/-- The post-delete trigger `RemoveUnusedTags` installed by
`Database::init`: after a DELETE on `TagMapping`, every `Tag` row that a
deleted row referenced and that no remaining mapping references is
removed. -/
def applyTrigger (db : Db) (deleted : List TagMapping) : Db :=
  { db with tags := db.tags.filter (fun t =>
      !(deleted.any (fun d => d.tagId == t.id)
        && !(db.mappings.any (fun m => m.tagId == t.id)))) }

/-- The `TagID IN (SELECT TagID FROM Tag WHERE Name = ?)` subquery of
`Database::untag`. -/
def tagIdHasName (db : Db) (tid : Nat) (name : String) : Bool :=
  db.tags.any (fun t => t.id == tid && t.name == name)

/-- The WHERE clause of `Database::untag`: path, optional value, and the
`TagID IN (...)` subquery all match. -/
def untagPred (db : Db) (path tag : String) (value : Option String) :
    TagMapping → Bool := fun m =>
  m.path == path
    && (match value with
        | some v => m.value == some v
        | none => true)
    && tagIdHasName db m.tagId tag

/-- `Database::untag`: delete the mappings matching path, tag name and
(when given) value; error when nothing was deleted. -/
def dbUntag (db : Db) (path tag : String) (value : Option String) : Except String Db :=
  let deleted := db.mappings.filter (untagPred db path tag value)
  if deleted.isEmpty then
    .error ("could not remove tag \"" ++ tag ++ "\" from \"" ++ path ++ "\". Does it exist?")
  else
    .ok (applyTrigger
      { db with mappings := db.mappings.filter (fun m => !(untagPred db path tag value m)) }
      deleted)

/-- The WHERE clause of `Database::untag_all`. -/
def untagAllPred (path : String) : TagMapping → Bool := fun m => m.path == path

/-- `Database::untag_all`: delete every mapping of the path. -/
def dbUntagAll (db : Db) (path : String) : Except String Db :=
  let deleted := db.mappings.filter (untagAllPred path)
  if deleted.isEmpty then
    .error ("could not remove tags from path \"" ++ path ++ "\". Does it exist?")
  else
    .ok (applyTrigger
      { db with mappings := db.mappings.filter (fun m => !(untagAllPred path m)) }
      deleted)

/-- One mutating operation at the tag-store API: `Database::tag`,
`Database::autotag`, `Database::untag`, `Database::untag_all`. -/
inductive DbOp where
  | tag (path tagName : String) (value : Option String)
  | autotag (path tagName : String) (value : Option String)
  | untag (path tagName : String) (value : Option String)
  | untagAll (path : String)

/-- Run one operation; on a user-visible error the state is unchanged
(each failing operation bails before any write). -/
def applyOp (db : Db) (op : DbOp) : Db :=
  match op with
  | .tag p t v =>
    match tagInner db p t v false with
    | .ok db2 => db2
    | .error _ => db
  | .autotag p t v =>
    match tagInner db p t v true with
    | .ok db2 => db2
    | .error _ => db
  | .untag p t v =>
    match dbUntag db p t v with
    | .ok db2 => db2
    | .error _ => db
  | .untagAll p =>
    match dbUntagAll db p with
    | .ok db2 => db2
    | .error _ => db

/-- Well-formedness of a store state: primary keys bounded by the
autoincrement counter and unique, tag names unique (`UNIQUE(Name)`), the
`TagID` foreign key enforced (`PRAGMA foreign_keys = ON`), and the
takes-value discipline: a mapping carries a value exactly when its tag's
`takes_value` flag is set. -/
def DbInv (db : Db) : Prop :=
  (∀ t ∈ db.tags, t.id < db.nextTagId)
  ∧ (∀ t1 ∈ db.tags, ∀ t2 ∈ db.tags, t1.id = t2.id → t1 = t2)
  ∧ (∀ t1 ∈ db.tags, ∀ t2 ∈ db.tags, t1.name = t2.name → t1 = t2)
  ∧ (∀ m ∈ db.mappings, ∃ t ∈ db.tags, m.tagId = t.id)
  ∧ (∀ t ∈ db.tags, ∀ m ∈ db.mappings, m.tagId = t.id → m.value.isSome = t.takesValue)

theorem dbInv_empty : DbInv emptyDb := by
  refine ⟨?_, ?_, ?_, ?_, ?_⟩ <;> simp [emptyDb]

theorem insertMapping_ok_shape (db : Db) (tid : Nat) (p : String) (v : Option String)
    (a : Bool) (db2 : Db) (h : insertMapping db tid p v a = .ok db2) :
    db2.tags = db.tags
    ∧ db2.mappings = db.mappings ++ [⟨db.nextMappingId, tid, p, v, a⟩]
    ∧ db2.nextTagId = db.nextTagId := by
  rw [insertMapping] at h
  split_ifs at h
  injection h with h
  subst h
  exact ⟨rfl, rfl, rfl⟩

theorem getDbTag_mem (db : Db) (n : String) (t : TagInfo) (h : getDbTag db n = some t) :
    t ∈ db.tags ∧ t.name = n := by
  rw [getDbTag] at h
  have hm := List.mem_of_find?_eq_some h
  have hp := List.find?_some h
  simp at hp
  exact ⟨hm, hp⟩

theorem getDbTag_none (db : Db) (n : String) (h : getDbTag db n = none) :
    ∀ t ∈ db.tags, t.name ≠ n := by
  rw [getDbTag] at h
  intro t ht
  have hh := List.find?_eq_none.mp h t ht
  simpa using hh

theorem find?_append_of_none {a : Type} {p : a → Bool} {l1 l2 : List a}
    (h : l1.find? p = none) : (l1 ++ l2).find? p = l2.find? p := by
  induction l1 with
  | nil => simp
  | cons x rest ih =>
    rcases hx : p x with _ | _
    · have h2 : rest.find? p = none := by
        simpa [List.find?_cons, hx] using h
      simpa [List.find?_cons, hx] using ih h2
    · exfalso
      simp [List.find?_cons, hx] at h

theorem tagInner_inv (db : Db) (p tn : String) (v : Option String) (a : Bool)
    (db2 : Db) (hInv : DbInv db) (hok : tagInner db p tn v a = .ok db2) :
    DbInv db2 := by
  obtain ⟨h1, h2, h3, h4, h5⟩ := hInv
  rw [tagInner] at hok
  rcases hg : getDbTag db tn with _ | t
  · -- the tag does not exist: it is created with takes_value = value.is_some()
    simp only [hg] at hok
    have hnone := getDbTag_none db tn hg
    have hany : db.tags.any (fun t => t.name == tn) = false := by
      rw [List.any_eq_false]
      intro t ht
      simpa using hnone t ht
    have hcreate : createTag db tn v.isSome
        = .ok (⟨db.nextTagId, tn, v.isSome⟩,
            { db with nextTagId := db.nextTagId + 1,
                      tags := db.tags ++ [⟨db.nextTagId, tn, v.isSome⟩] }) := by
      rw [createTag, if_neg (by simp [hany])]
    simp only [hcreate] at hok
    obtain ⟨hts, hms, hnt⟩ := insertMapping_ok_shape _ _ _ _ _ _ hok
    constructor
    · intro t ht
      rw [hts] at ht
      rw [hnt]
      rcases List.mem_append.mp ht with hold | hnew
      · have := h1 t hold
        simp only
        omega
      · simp at hnew
        subst hnew
        simp
    constructor
    · intro t1 ht1 t2 ht2 heq
      rw [hts] at ht1 ht2
      rcases List.mem_append.mp ht1 with ho1 | hn1 <;>
        rcases List.mem_append.mp ht2 with ho2 | hn2
      · exact h2 t1 ho1 t2 ho2 heq
      · simp at hn2
        subst hn2
        have := h1 t1 ho1
        simp at heq
        omega
      · simp at hn1
        subst hn1
        have := h1 t2 ho2
        simp at heq
        omega
      · simp at hn1 hn2
        rw [hn1, hn2]
    constructor
    · intro t1 ht1 t2 ht2 heq
      rw [hts] at ht1 ht2
      rcases List.mem_append.mp ht1 with ho1 | hn1 <;>
        rcases List.mem_append.mp ht2 with ho2 | hn2
      · exact h3 t1 ho1 t2 ho2 heq
      · simp at hn2
        subst hn2
        simp at heq
        exact absurd heq (hnone t1 ho1)
      · simp at hn1
        subst hn1
        simp at heq
        exact absurd heq.symm (hnone t2 ho2)
      · simp at hn1 hn2
        rw [hn1, hn2]
    constructor
    · intro m hm
      rw [hms] at hm
      rcases List.mem_append.mp hm with hold | hnew
      · obtain ⟨t, htmem, hid⟩ := h4 m hold
        exact ⟨t, by rw [hts]; exact List.mem_append.mpr (Or.inl htmem), hid⟩
      · simp at hnew
        subst hnew
        refine ⟨⟨db.nextTagId, tn, v.isSome⟩, ?_, rfl⟩
        rw [hts]
        exact List.mem_append.mpr (Or.inr (by simp))
    · intro t ht m hm hid
      rw [hts] at ht
      rw [hms] at hm
      rcases List.mem_append.mp ht with hto | htn <;>
        rcases List.mem_append.mp hm with hmo | hmn
      · exact h5 t hto m hmo hid
      · simp at hmn
        subst hmn
        simp at hid
        have := h1 t hto
        omega
      · simp at htn
        subst htn
        obtain ⟨t', ht', hid'⟩ := h4 m hmo
        have := h1 t' ht'
        simp at hid
        omega
      · simp at htn hmn
        subst htn
        subst hmn
        simp
  · -- the tag exists: the value conventions are checked before any write
    simp only [hg] at hok
    obtain ⟨htmem, htname⟩ := getDbTag_mem db tn t hg
    split_ifs at hok with hc1 hc2
    have hval : v.isSome = t.takesValue := by
      rcases v with _ | vv <;> cases htv : t.takesValue <;> simp_all
    obtain ⟨hts, hms, hnt⟩ := insertMapping_ok_shape _ _ _ _ _ _ hok
    constructor
    · intro t' ht'
      rw [hts] at ht'
      rw [hnt]
      exact h1 t' ht'
    constructor
    · intro t1 ht1 t2 ht2 heq
      rw [hts] at ht1 ht2
      exact h2 t1 ht1 t2 ht2 heq
    constructor
    · intro t1 ht1 t2 ht2 heq
      rw [hts] at ht1 ht2
      exact h3 t1 ht1 t2 ht2 heq
    constructor
    · intro m hm
      rw [hms] at hm
      rcases List.mem_append.mp hm with hold | hnew
      · obtain ⟨t', ht', hid'⟩ := h4 m hold
        exact ⟨t', by rw [hts]; exact ht', hid'⟩
      · simp at hnew
        subst hnew
        exact ⟨t, by rw [hts]; exact htmem, rfl⟩
    · intro t' ht' m hm hid
      rw [hts] at ht'
      rw [hms] at hm
      rcases List.mem_append.mp hm with hmo | hmn
      · exact h5 t' ht' m hmo hid
      · simp at hmn
        subst hmn
        simp at hid
        have heqt : t' = t := h2 t' ht' t htmem hid.symm
        rw [heqt, hval]

theorem applyTrigger_filter_inv (db : Db) (pred : TagMapping → Bool) (hInv : DbInv db) :
    DbInv (applyTrigger { db with mappings := db.mappings.filter (fun m => !(pred m)) }
      (db.mappings.filter pred)) := by
  obtain ⟨h1, h2, h3, h4, h5⟩ := hInv
  simp only [applyTrigger]
  constructor
  · intro t ht
    exact h1 t (List.mem_filter.mp ht).1
  constructor
  · intro t1 ht1 t2 ht2 heq
    exact h2 t1 (List.mem_filter.mp ht1).1 t2 (List.mem_filter.mp ht2).1 heq
  constructor
  · intro t1 ht1 t2 ht2 heq
    exact h3 t1 (List.mem_filter.mp ht1).1 t2 (List.mem_filter.mp ht2).1 heq
  constructor
  · intro m hm
    simp only at hm
    have hm' := List.mem_filter.mp hm
    obtain ⟨t, htmem, hid⟩ := h4 m hm'.1
    refine ⟨t, ?_, hid⟩
    rw [List.mem_filter]
    refine ⟨htmem, ?_⟩
    have hany : (db.mappings.filter (fun m' => !(pred m'))).any
        (fun m' => m'.tagId == t.id) = true := by
      rw [List.any_eq_true]
      exact ⟨m, hm, by simp [hid]⟩
    simp [hany]
  · intro t ht m hm hid
    exact h5 t (List.mem_filter.mp ht).1 m (List.mem_filter.mp hm).1 hid

theorem dbUntag_inv (db : Db) (p t : String) (v : Option String) (db2 : Db)
    (hInv : DbInv db) (hok : dbUntag db p t v = .ok db2) : DbInv db2 := by
  rw [dbUntag] at hok
  split_ifs at hok
  injection hok with hok
  subst hok
  exact applyTrigger_filter_inv db (untagPred db p t v) hInv

theorem dbUntagAll_inv (db : Db) (p : String) (db2 : Db)
    (hInv : DbInv db) (hok : dbUntagAll db p = .ok db2) : DbInv db2 := by
  rw [dbUntagAll] at hok
  split_ifs at hok
  injection hok with hok
  subst hok
  exact applyTrigger_filter_inv db (untagAllPred p) hInv

theorem applyOp_inv (db : Db) (op : DbOp) (h : DbInv db) : DbInv (applyOp db op) := by
  cases op with
  | tag p t v =>
    simp only [applyOp]
    rcases hr : tagInner db p t v false with e | db2
    · exact h
    · exact tagInner_inv db p t v false db2 h hr
  | autotag p t v =>
    simp only [applyOp]
    rcases hr : tagInner db p t v true with e | db2
    · exact h
    · exact tagInner_inv db p t v true db2 h hr
  | untag p t v =>
    simp only [applyOp]
    rcases hr : dbUntag db p t v with e | db2
    · exact h
    · exact dbUntag_inv db p t v db2 h hr
  | untagAll p =>
    simp only [applyOp]
    rcases hr : dbUntagAll db p with e | db2
    · exact h
    · exact dbUntagAll_inv db p db2 h hr

theorem foldl_applyOp_inv (ops : List DbOp) :
    ∀ db, DbInv db → DbInv (ops.foldl applyOp db) := by
  induction ops with
  | nil => intro db h; simpa using h
  | cons op rest ih =>
    intro db h
    simpa using ih (applyOp db op) (applyOp_inv db op h)

theorem tagInner_tags_shape (db : Db) (p tn : String) (v : Option String) (a : Bool)
    (db2 : Db) (hok : tagInner db p tn v a = .ok db2) :
    db2.tags = db.tags
    ∨ ((∀ t ∈ db.tags, t.name ≠ tn)
        ∧ db2.tags = db.tags ++ [⟨db.nextTagId, tn, v.isSome⟩]) := by
  rw [tagInner] at hok
  rcases hg : getDbTag db tn with _ | t
  · simp only [hg] at hok
    have hnone := getDbTag_none db tn hg
    have hany : db.tags.any (fun t => t.name == tn) = false := by
      rw [List.any_eq_false]
      intro t ht
      simpa using hnone t ht
    have hcreate : createTag db tn v.isSome
        = .ok (⟨db.nextTagId, tn, v.isSome⟩,
            { db with nextTagId := db.nextTagId + 1,
                      tags := db.tags ++ [⟨db.nextTagId, tn, v.isSome⟩] }) := by
      rw [createTag, if_neg (by simp [hany])]
    simp only [hcreate] at hok
    obtain ⟨hts, _, _⟩ := insertMapping_ok_shape _ _ _ _ _ _ hok
    exact Or.inr ⟨hnone, hts⟩
  · simp only [hg] at hok
    split_ifs at hok
    obtain ⟨hts, _, _⟩ := insertMapping_ok_shape _ _ _ _ _ _ hok
    exact Or.inl hts

theorem dbUntag_tags_sub (db : Db) (p tg : String) (v : Option String) (db2 : Db)
    (hok : dbUntag db p tg v = .ok db2) : ∀ x ∈ db2.tags, x ∈ db.tags := by
  rw [dbUntag] at hok
  split_ifs at hok
  injection hok with hok
  subst hok
  intro x hx
  exact (List.mem_filter.mp hx).1

theorem dbUntagAll_tags_sub (db : Db) (p : String) (db2 : Db)
    (hok : dbUntagAll db p = .ok db2) : ∀ x ∈ db2.tags, x ∈ db.tags := by
  rw [dbUntagAll] at hok
  split_ifs at hok
  injection hok with hok
  subst hok
  intro x hx
  exact (List.mem_filter.mp hx).1

/-- C5: after any sequence of tag and untag operations from the fresh
store, every tag satisfies takes-value symmetry — all of its mappings
carry a value, or none does; a previously-unseen tag is created with
`takes_value` equal to whether its first mapping carried a value; a
`tag()` call that contradicts an existing tag's convention fails with a
user-visible error before anything is written, leaving the store
unchanged; and no operation ever changes the `takes_value` flag of a tag
name that stays in the store. -/
theorem takes_value_symmetry :
    (∀ ops : List DbOp, ∀ t ∈ (ops.foldl applyOp emptyDb).tags,
      (∀ m ∈ (ops.foldl applyOp emptyDb).mappings, m.tagId = t.id → m.value.isSome = true)
      ∨ (∀ m ∈ (ops.foldl applyOp emptyDb).mappings, m.tagId = t.id → m.value.isSome = false))
    ∧ (∀ db path tagName value auto, getDbTag db tagName = none →
        ∀ db2, tagInner db path tagName value auto = .ok db2 →
          getDbTag db2 tagName = some ⟨db.nextTagId, tagName, value.isSome⟩)
    ∧ (∀ db path tagName value auto t, getDbTag db tagName = some t →
        t.takesValue ≠ value.isSome →
        ∃ msg, tagInner db path tagName value auto = Except.error msg)
    ∧ (∀ db op t, DbInv db → t ∈ db.tags → ∀ t2 ∈ (applyOp db op).tags,
        t2.name = t.name → t2.takesValue = t.takesValue) := by
  refine ⟨?_, ?_, ?_, ?_⟩
  · intro ops t ht
    obtain ⟨h1, h2, h3, h4, h5⟩ := foldl_applyOp_inv ops emptyDb dbInv_empty
    cases htv : t.takesValue
    · exact Or.inr (fun m hm hid => (h5 t ht m hm hid).trans htv)
    · exact Or.inl (fun m hm hid => (h5 t ht m hm hid).trans htv)
  · intro db path tn v auto hg db2 hok
    rw [tagInner] at hok
    simp only [hg] at hok
    have hnone := getDbTag_none db tn hg
    have hany : db.tags.any (fun t => t.name == tn) = false := by
      rw [List.any_eq_false]
      intro t ht
      simpa using hnone t ht
    have hcreate : createTag db tn v.isSome
        = .ok (⟨db.nextTagId, tn, v.isSome⟩,
            { db with nextTagId := db.nextTagId + 1,
                      tags := db.tags ++ [⟨db.nextTagId, tn, v.isSome⟩] }) := by
      rw [createTag, if_neg (by simp [hany])]
    simp only [hcreate] at hok
    obtain ⟨hts, _, _⟩ := insertMapping_ok_shape _ _ _ _ _ _ hok
    rw [getDbTag, hts]
    rw [getDbTag] at hg
    rw [find?_append_of_none hg]
    simp
  · intro db path tn v auto t hg hne
    rw [tagInner]
    simp only [hg]
    cases htv : t.takesValue <;> rcases v with _ | vv
    · exact absurd (by simp [htv]) hne
    · exact ⟨"tag \"" ++ tn ++ "\" does not take a value but one was given",
        by rw [if_neg (by simp [htv]), if_pos (by simp [htv])]⟩
    · exact ⟨"tag \"" ++ tn ++ "\" takes a value but one was not given",
        by rw [if_pos (by simp [htv])]⟩
    · exact absurd (by simp [htv]) hne
  · intro db op t hInv ht t2 ht2 hname
    obtain ⟨h1, h2, h3, h4, h5⟩ := hInv
    have hsame : t2 ∈ db.tags → t2.takesValue = t.takesValue := by
      intro hmem
      rw [h3 t2 hmem t ht hname]
    cases op with
    | tag p tn v =>
      simp only [applyOp] at ht2
      rcases hr : tagInner db p tn v false with e | dbx
      · rw [hr] at ht2
        exact hsame ht2
      · rw [hr] at ht2
        simp only at ht2
        rcases tagInner_tags_shape db p tn v false dbx hr with hsh | ⟨habs, hsh⟩
        · rw [hsh] at ht2
          exact hsame ht2
        · rw [hsh] at ht2
          rcases List.mem_append.mp ht2 with ho | hn
          · exact hsame ho
          · simp at hn
            subst hn
            simp at hname
            exact absurd hname.symm (habs t ht)
    | autotag p tn v =>
      simp only [applyOp] at ht2
      rcases hr : tagInner db p tn v true with e | dbx
      · rw [hr] at ht2
        exact hsame ht2
      · rw [hr] at ht2
        simp only at ht2
        rcases tagInner_tags_shape db p tn v true dbx hr with hsh | ⟨habs, hsh⟩
        · rw [hsh] at ht2
          exact hsame ht2
        · rw [hsh] at ht2
          rcases List.mem_append.mp ht2 with ho | hn
          · exact hsame ho
          · simp at hn
            subst hn
            simp at hname
            exact absurd hname.symm (habs t ht)
    | untag p tn v =>
      simp only [applyOp] at ht2
      rcases hr : dbUntag db p tn v with e | dbx
      · rw [hr] at ht2
        exact hsame ht2
      · rw [hr] at ht2
        simp only at ht2
        exact hsame (dbUntag_tags_sub db p tn v dbx hr t2 ht2)
    | untagAll p =>
      simp only [applyOp] at ht2
      rcases hr : dbUntagAll db p with e | dbx
      · rw [hr] at ht2
        exact hsame ht2
      · rw [hr] at ht2
        simp only at ht2
        exact hsame (dbUntagAll_tags_sub db p dbx hr t2 ht2)

/-- The store produced by tagging path `p` with the valueless tag `a` on a
fresh store. -/
def dbAfterFirstTag : Db :=
  { nextTagId := 2, nextMappingId := 2,
    tags := [⟨1, "a", false⟩],
    mappings := [⟨1, 1, "p", none, false⟩] }

/-- Witness for C5: tagging `p` with valueless `a` creates the tag with
`takes_value = false`; re-tagging with a value is then rejected. -/
theorem takes_value_symmetry_witness :
    getDbTag dbAfterFirstTag "a" = some ⟨1, "a", false⟩
    ∧ ∃ msg, tagInner dbAfterFirstTag "q" "a" (some "v") false = Except.error msg := by
  constructor
  · exact takes_value_symmetry.2.1 emptyDb "p" "a" none false (by decide)
      dbAfterFirstTag (by rfl)
  · exact takes_value_symmetry.2.2.1 dbAfterFirstTag "q" "a" (some "v") false ⟨1, "a", false⟩
      (by decide) (by decide)

/-! ### `Database::prefix_change` (`src/lib/db.rs`) -/

/-- SQLite's default `LIKE` folds the ASCII letters A-Z to lower case. -/
def asciiLower (c : Char) : Char :=
  if 'A' ≤ c ∧ c ≤ 'Z' then Char.ofNat (c.toNat + 32) else c

/-- `Path LIKE (escaped_old || '%') ESCAPE '\'`: the `%`/`_` escaping makes
the old prefix literal, so this is an ASCII-case-insensitive
starts-with test. -/
def likeStartsWith (pat s : List Char) : Bool :=
  (pat.map asciiLower).isPrefixOf (s.map asciiLower)

/-- `Database::prefix_change`: `UPDATE TagMapping SET Path =
REPLACE(TagMapping.Path, old, new) WHERE Path LIKE (escaped_old || '%')
ESCAPE '\'`.  SQLite's `REPLACE(X, Y, Z)` substitutes every occurrence of
`Y` in `X`, not only the leading one. -/
def prefixChange (db : Db) (oldPre newPre : String) : Db :=
  { db with mappings := db.mappings.map (fun m =>
      if likeStartsWith oldPre.data m.path.data
      then { m with path := String.mk (replaceAll oldPre.data newPre.data m.path.data) }
      else m) }

/-- A store with one mapping whose path repeats the prefix further in. -/
def dbRepeatedInfix : Db :=
  { nextTagId := 2, nextMappingId := 2,
    tags := [⟨1, "t", false⟩],
    mappings := [⟨1, 1, "/a/b/a/b", none, false⟩] }

/-- A store with one mapping whose path matches the prefix only
case-insensitively but contains a later case-sensitive occurrence. -/
def dbCaseInfix : Db :=
  { nextTagId := 2, nextMappingId := 2,
    tags := [⟨1, "t", false⟩],
    mappings := [⟨1, 1, "/A/c/a/d", none, false⟩] }

/-- C6: `prefix_change("/a", "/x")` on the path `/a/b/a/b` rewrites every
occurrence of `/a`, producing `/x/b/x/b` where the claim requires
`/x/b/a/b`; on the path `/A/c/a/d`, which does not begin with `/a`
case-sensitively, the case-insensitive `LIKE` still selects the row and
`REPLACE` rewrites the interior occurrence; a path not matching the prefix
at all is untouched. -/
theorem prefix_change_replaces_all_occurrences :
    (prefixChange dbRepeatedInfix "/a" "/x").mappings.map (fun m => m.path)
      = ["/x/b/x/b"]
    ∧ (["/x/b/x/b"] : List String) ≠ ["/x/b/a/b"]
    ∧ (prefixChange dbCaseInfix "/a" "/x").mappings.map (fun m => m.path)
      = ["/A/c/x/d"]
    ∧ (["/A/c/x/d"] : List String) ≠ ["/A/c/a/d"]
    ∧ (prefixChange dbRepeatedInfix "/c" "/x").mappings.map (fun m => m.path)
      = ["/a/b/a/b"] := by
  refine ⟨?_, by decide, ?_, by decide, ?_⟩
  · simp [prefixChange, dbRepeatedInfix, likeStartsWith, asciiLower, replaceAll,
      List.isPrefixOf]
  · simp [prefixChange, dbCaseInfix, likeStartsWith, asciiLower, replaceAll,
      List.isPrefixOf]
  · simp [prefixChange, dbRepeatedInfix, likeStartsWith, asciiLower, replaceAll,
      List.isPrefixOf]

/-! ### `sanitise_path` (`src/lib/fs.rs`) -/

/-- Split a character list at `/` separators: the raw components of a path,
empty components included. -/
def splitSlash : List Char → List (List Char)
  | [] => [[]]
  | c :: rest =>
    match splitSlash rest with
    | [] => [[c]]
    | g :: gs => if c = '/' then [] :: g :: gs else (c :: g) :: gs

/-- `camino::Utf8Path::file_name`, as called by the `basename` helper inside
`sanitise_path`: the final normal component of the path (empty and `.`
components are dropped by path normalisation); `none` when there is no
final normal component (empty path, `/`, a path ending in `..`) — the Rust
helper panics in that case. -/
def basename (path : String) : Option String :=
  let comps := (splitSlash path.data).filter (fun c => !(c.isEmpty || c == ['.']))
  match comps.getLast? with
  | none => none
  | some c => if c = ['.', '.'] then none else some (String.mk c)

/-- The basename with a default, to state display-name facts compactly. -/
def basenameStr (path : String) : String := (basename path).getD ""

/-- The `siblings.enumerate().any(|(idx, sibling)| idx != path_idx &&
basename(sibling) == path_basename)` loop of `sanitise_path`, with the
enumeration index carried explicitly. -/
def anySameName (pb : String) (pathIdx : Nat) : Nat → List String → Bool
  | _, [] => false
  | k, s :: rest =>
    ((k != pathIdx) && (basename s == some pb)) || anySameName pb pathIdx (k + 1) rest

/-- `sanitise_path(path, path_idx, siblings)`: the display name is
`basename.path_idx` when some sibling at a different index has the same
basename, and the basename verbatim otherwise.  `none` models the panic on
a path without a final component. -/
def sanitisePath (path : String) (pathIdx : Nat) (siblings : List String) :
    Option String :=
  match basename path with
  | none => none
  | some pb =>
    if anySameName pb pathIdx 0 siblings then some (pb ++ "." ++ Nat.repr pathIdx)
    else some pb

example : sanitisePath "/my/long/file/path.txt" 0
    ["/my/other/long/file/path.txt", "/some/other/file", "/some/other/file/path.txt"]
    = some "path.txt.0" := by decide

example : sanitisePath "/my/other/long/file/path.txt" 1
    ["/my/long/file/path.txt", "/some/other/file", "/some/other/file/path.txt"]
    = some "path.txt.1" := by decide

example : sanitisePath "/a/very/cool/path.txt" 0
    ["/a/very/cool/path.txt", "/some/unrelated/other/path.rs", "/another/random/path.jpg"]
    = some "path.txt" := by decide

/-! Decimal rendering facts about `Nat.repr`, needed to separate the
`basename.index` display names. -/

/-- The numeric value of a decimal digit character. -/
def digitVal (c : Char) : Nat := c.toNat - 48

/-- Read a digit string back as a number. -/
def numOfDigits (l : List Char) : Nat := l.foldl (fun a c => 10 * a + digitVal c) 0

theorem digitChar_ne_dot (k : Nat) (h : k < 10) : Nat.digitChar k ≠ '.' := by
  interval_cases k <;> decide

theorem digitVal_digitChar (k : Nat) (h : k < 10) :
    digitVal (Nat.digitChar k) = k := by
  interval_cases k <;> decide

theorem toDigitsCore_ne_dot :
    ∀ (fuel n : Nat) (ds : List Char), '.' ∉ ds →
      '.' ∉ Nat.toDigitsCore 10 fuel n ds := by
  intro fuel
  induction fuel with
  | zero => intro n ds h; simpa [Nat.toDigitsCore] using h
  | succ f ih =>
    intro n ds h
    simp only [Nat.toDigitsCore]
    split
    · intro hm
      rcases List.mem_cons.mp hm with h1 | h1
      · exact digitChar_ne_dot (n % 10) (Nat.mod_lt _ (by decide)) h1.symm
      · exact h h1
    · refine ih (n / 10) _ ?_
      intro hm
      rcases List.mem_cons.mp hm with h1 | h1
      · exact digitChar_ne_dot (n % 10) (Nat.mod_lt _ (by decide)) h1.symm
      · exact h h1

theorem toDigitsCore_append :
    ∀ (fuel n : Nat) (ds : List Char),
      Nat.toDigitsCore 10 fuel n ds = Nat.toDigitsCore 10 fuel n [] ++ ds := by
  intro fuel
  induction fuel with
  | zero => intro n ds; simp [Nat.toDigitsCore]
  | succ f ih =>
    intro n ds
    simp only [Nat.toDigitsCore]
    by_cases h0 : n / 10 = 0
    · simp [h0]
    · simp only [h0, if_false]
      rw [ih (n / 10) (Nat.digitChar (n % 10) :: ds),
        ih (n / 10) [Nat.digitChar (n % 10)]]
      simp

theorem toDigitsCore_num :
    ∀ (fuel n : Nat), n < fuel →
      numOfDigits (Nat.toDigitsCore 10 fuel n []) = n := by
  intro fuel
  induction fuel with
  | zero => intro n h; exact absurd h (Nat.not_lt_zero n)
  | succ f ih =>
    intro n h
    simp only [Nat.toDigitsCore]
    by_cases h0 : n / 10 = 0
    · have hn : n < 10 := by omega
      simp only [h0, if_true]
      simp [numOfDigits, digitVal_digitChar (n % 10) (Nat.mod_lt _ (by decide))]
      omega
    · have h1 : n / 10 < f := by omega
      simp only [h0, if_false]
      rw [toDigitsCore_append f (n / 10) [Nat.digitChar (n % 10)]]
      simp only [numOfDigits, List.foldl_append] at *
      rw [show List.foldl (fun a c => 10 * a + digitVal c) 0
          (Nat.toDigitsCore 10 f (n / 10) []) = n / 10 from ih (n / 10) h1]
      simp [List.foldl, digitVal_digitChar (n % 10) (Nat.mod_lt _ (by decide))]
      omega

theorem nat_repr_inj {m n : Nat} (h : Nat.repr m = Nat.repr n) : m = n := by
  have hd : Nat.toDigitsCore 10 (m + 1) m [] = Nat.toDigitsCore 10 (n + 1) n [] :=
    congrArg String.data h
  calc m = numOfDigits (Nat.toDigitsCore 10 (m + 1) m []) :=
        (toDigitsCore_num _ _ (Nat.lt_succ_self m)).symm
    _ = numOfDigits (Nat.toDigitsCore 10 (n + 1) n []) := congrArg _ hd
    _ = n := toDigitsCore_num _ _ (Nat.lt_succ_self n)

theorem nat_repr_ne_dot (n : Nat) : '.' ∉ (Nat.repr n).data :=
  toDigitsCore_ne_dot (n + 1) n [] (by simp)

theorem append_dot_eq :
    ∀ (x y u v : List Char), '.' ∉ x → '.' ∉ y →
      x ++ '.' :: u = y ++ '.' :: v → x = y ∧ u = v := by
  intro x
  induction x with
  | nil =>
    intro y u v hx hy h
    cases y with
    | nil => simpa using h
    | cons b y' =>
      simp only [List.nil_append, List.cons_append, List.cons.injEq] at h
      rcases h with ⟨h1, h2⟩
      subst h1
      simp at hy
  | cons a x' ih =>
    intro y u v hx hy h
    cases y with
    | nil =>
      simp only [List.cons_append, List.nil_append, List.cons.injEq] at h
      rcases h with ⟨h1, h2⟩
      subst h1
      simp at hx
    | cons b y' =>
      simp only [List.cons_append, List.cons.injEq] at h
      rcases h with ⟨h1, h2⟩
      have hx' : '.' ∉ x' := fun hm => hx (List.mem_cons_of_mem _ hm)
      have hy' : '.' ∉ y' := fun hm => hy (List.mem_cons_of_mem _ hm)
      rcases ih y' u v hx' hy' h2 with ⟨h3, h4⟩
      exact ⟨by rw [h1, h3], h4⟩

theorem string_eq_of_data {s t : String} (h : s.data = t.data) : s = t := by
  cases s; cases t; exact congrArg String.mk h

theorem suffix_display_inj {b1 b2 : String} {i j : Nat}
    (h : b1 ++ "." ++ Nat.repr i = b2 ++ "." ++ Nat.repr j) : b1 = b2 ∧ i = j := by
  have hd : b1.data ++ '.' :: (Nat.repr i).data
      = b2.data ++ '.' :: (Nat.repr j).data := by
    have h2 := congrArg String.data h
    simpa [String.data_append] using h2
  have hr := congrArg List.reverse hd
  simp only [List.reverse_append, List.reverse_cons, List.append_assoc,
    List.singleton_append] at hr
  have hri : '.' ∉ (Nat.repr i).data.reverse := by
    simp [List.mem_reverse]; exact fun hm => nat_repr_ne_dot i hm
  have hrj : '.' ∉ (Nat.repr j).data.reverse := by
    simp [List.mem_reverse]; exact fun hm => nat_repr_ne_dot j hm
  rcases append_dot_eq _ _ _ _ hri hrj hr with ⟨h3, h4⟩
  have hb : b1.data = b2.data := by
    have := congrArg List.reverse h4
    simpa using this
  have hrr : (Nat.repr i).data = (Nat.repr j).data := by
    have := congrArg List.reverse h3
    simpa using this
  exact ⟨string_eq_of_data hb, nat_repr_inj (string_eq_of_data hrr)⟩

theorem anySameName_true_of (pb : String) (pi : Nat) :
    ∀ (l : List String) (k j : Nat) (hj : j < l.length),
      k + j ≠ pi → basename (l.get ⟨j, hj⟩) = some pb →
      anySameName pb pi k l = true := by
  intro l
  induction l with
  | nil => intro k j hj; exact absurd hj (by simp)
  | cons s rest ih =>
    intro k j hj hne hb
    cases j with
    | zero =>
      have hb' : basename s = some pb := hb
      have hk : k ≠ pi := by omega
      simp [anySameName, hb', hk]
    | succ j' =>
      have hj' : j' < rest.length := by simpa using hj
      have hne' : (k + 1) + j' ≠ pi := by omega
      have hb' : basename (rest.get ⟨j', hj'⟩) = some pb := hb
      simp [anySameName, ih (k + 1) j' hj' hne' hb']

/-- C9 (amended): for every list of sibling paths in which each path has a
final component and no path's basename coincides with another path's
basename followed by `.` and that other path's decimal index, the display
names produced by `sanitise_path` are pairwise unique within the list.
Without that proviso the claim fails, see
`sanitise_path_collision_counterexample`. -/
theorem sanitise_path_unique_displays (paths : List String)
    (hvalid : ∀ p ∈ paths, (basename p).isSome = true)
    (hnosuf : ∀ i j, (hi : i < paths.length) → (hj : j < paths.length) →
      basenameStr paths[j] ≠ basenameStr paths[i] ++ "." ++ Nat.repr i) :
    ∀ i j, (hi : i < paths.length) → (hj : j < paths.length) → i ≠ j →
      sanitisePath paths[i] i paths ≠ sanitisePath paths[j] j paths := by
  intro i j hi hj hne heq
  have hbi0 := hvalid _ (List.getElem_mem hi)
  have hbj0 := hvalid _ (List.getElem_mem hj)
  rw [Option.isSome_iff_exists] at hbi0 hbj0
  obtain ⟨bi, hbi⟩ := hbi0
  obtain ⟨bj, hbj⟩ := hbj0
  have hBi : basenameStr paths[i] = bi := by simp [basenameStr, hbi]
  have hBj : basenameStr paths[j] = bj := by simp [basenameStr, hbj]
  simp only [sanitisePath, hbi, hbj] at heq
  by_cases hA : anySameName bi i 0 paths = true <;>
    by_cases hB : anySameName bj j 0 paths = true <;>
    simp [hA, hB] at heq
  · rcases suffix_display_inj heq with ⟨_, hij⟩
    exact hne hij
  · exact hnosuf i j hi hj (by rw [hBj, hBi]; exact heq.symm)
  · exact hnosuf j i hj hi (by rw [hBi, hBj]; exact heq)
  · exact hA (anySameName_true_of bi i paths 0 j hj (by omega)
      (by rw [show (paths.get ⟨j, hj⟩) = paths[j] from rfl, hbj, heq]))

theorem sanitise_path_unique_displays_witness :
    sanitisePath "x/a" 0 ["x/a", "y/a"] ≠ sanitisePath "y/a" 1 ["x/a", "y/a"] := by
  have h := sanitise_path_unique_displays ["x/a", "y/a"] (by decide)
    (by intro i j hi hj
        have hi2 : i < 2 := by simpa using hi
        have hj2 : j < 2 := by simpa using hj
        interval_cases i <;> interval_cases j
        · exact (by decide : basenameStr "x/a" ≠ basenameStr "x/a" ++ "." ++ Nat.repr 0)
        · exact (by decide : basenameStr "y/a" ≠ basenameStr "x/a" ++ "." ++ Nat.repr 0)
        · exact (by decide : basenameStr "x/a" ≠ basenameStr "y/a" ++ "." ++ Nat.repr 1)
        · exact (by decide : basenameStr "y/a" ≠ basenameStr "y/a" ++ "." ++ Nat.repr 1))
    0 1 (by decide) (by decide) (by decide)
  exact h

/-- C9 counterexample: the claim as stated fails: in the sibling list
`x/a.1`, `y/a`, `z/a`, the path `y/a` collides on basename with `z/a` and
so displays as `a.1`, which is exactly the verbatim display of `x/a.1`. -/
theorem sanitise_path_collision_counterexample :
    sanitisePath "y/a" 1 ["x/a.1", "y/a", "z/a"]
      = sanitisePath "x/a.1" 0 ["x/a.1", "y/a", "z/a"]
    ∧ sanitisePath "y/a" 1 ["x/a.1", "y/a", "z/a"] = some "a.1" := by decide

end TagFS
